import Mathlib

/-!
# Verification of the `automaton_trial` regex-to-automata compiler

This file gives a shallow embedding, in Lean 4, of the Rust crate
`automaton_trial` (files `src/regex.rs` and `src/lib.rs`) and proves
properties of the embedded definitions.

Conventions of the embedding:

* Rust `&str` / `String` values are embedded as `List Char`.
* Rust `BTreeMap` values are embedded as association lists sorted by key
  (`List (κ × β)` with strictly increasing keys), which matches both the
  content and the (sorted) iteration order of a `BTreeMap`.
* Rust `BTreeSet<usize>` values are embedded as `Finset ℕ`; where the code
  iterates a `BTreeSet` the embedding iterates `Finset.sort (· ≤ ·)`,
  matching the sorted iteration order.
* Rust loops whose termination is not structural (the worklist loops of
  `epsilon_closure`, `reachable_states` and `Dfa::from_nfa`) are embedded
  with an explicit fuel parameter; the top-level wrappers supply a fuel
  that is proved sufficient, so the embedded function agrees with the loop.
* Fallible code is embedded with `Except` / `Option`; in particular the
  `todo!()` panic in `Dfa::optimize` is embedded as `Option.none`.
* Vec indexing out of bounds (a Rust panic) is embedded by `List.getD`
  with an inert default state; all theorems about program runs only
  exercise in-bounds indices.
-/

namespace AutomatonTrial

/-- The token type of `regex.rs` (`enum Token`). -/
inductive Token where
  | Literal (s : List Char)
  | LParen
  | RParen
  | Asterisk
  | VerticalBar
deriving DecidableEq, Repr

/-- The regex AST of `regex.rs`: `RegexNode` with its four variants
`RegexAtom`, `RegexRepeat`, `RegexOr`, `RegexJoin` (the separate Rust
structs are inlined as constructor arguments). -/
inductive RegexNode where
  | Atom (literal : List Char)
  | Repeat (pattern : RegexNode)
  | Or (left right : RegexNode)
  | Join (left right : RegexNode)
deriving DecidableEq, Repr

/-- The parse error type of `regex.rs` (`enum Error`). -/
inductive Error where
  | Empty
  | UnexpectedEnd
  | UnexpectedToken
deriving DecidableEq, Repr

/-- The display strings attached to `Error` by `thiserror`. -/
def Error.message : Error → String
  | .Empty => "input is empty."
  | .UnexpectedEnd => "unexpected end of input."
  | .UnexpectedToken => "unexpected token."

/-- Whether a character is one of the four special regex characters,
as matched in `take_token`. -/
def isSpecial (c : Char) : Bool :=
  c = '(' || c = ')' || c = '*' || c = '|'

/-- `take_token` from `regex.rs`: produce the next token and the remaining
input, or `none` when the input is exhausted.  A special character is a
one-character token; otherwise the maximal run of non-special characters
(which includes the first character) is a `Literal`. -/
def take_token : List Char → Option (Token × List Char)
  | [] => none
  | c :: rest =>
    if c = '(' then some (.LParen, rest)
    else if c = ')' then some (.RParen, rest)
    else if c = '*' then some (.Asterisk, rest)
    else if c = '|' then some (.VerticalBar, rest)
    else
      some (.Literal ((c :: rest).takeWhile (fun ch => !isSpecial ch)),
            (c :: rest).dropWhile (fun ch => !isSpecial ch))

mutual

/-- `parse` from `regex.rs` (the part before the trailing loop), with an
explicit fuel parameter standing for the recursion depth.  Takes one token
as the start of a primary (`Literal` → `Atom`; `LParen` → recursive parse
with the *caller's* stop token, then a required `RParen`; anything else →
`UnexpectedToken`), optionally wraps the primary in `Repeat` when an
`Asterisk` follows, then enters the loop (`parseLoop`). -/
def parse : Nat → List Char → Option Token → Except Error (RegexNode × List Char)
  | 0, _, _ => .error .Empty
  | fuel+1, s, terminal =>
    match take_token s with
    | none => .error .Empty
    | some (tok, rest) =>
      let primary : Except Error (RegexNode × List Char) :=
        match tok with
        | .Literal literal => .ok (.Atom literal, rest)
        | .LParen =>
          match parse fuel rest terminal with
          | .ok (p, rest) =>
            match take_token rest with
            | some (.RParen, rest) => .ok (p, rest)
            | some _ => .error .UnexpectedToken
            | none => .error .UnexpectedEnd
          | .error e => .error e
        | _ => .error .UnexpectedToken
      match primary with
      | .error e => .error e
      | .ok (node, rest) =>
        match take_token rest with
        | some (.Asterisk, r) => parseLoop fuel (.Repeat node) r terminal
        | _ => parseLoop fuel node rest terminal

/-- The trailing `loop` of `parse` in `regex.rs`: repeatedly inspect the
next token; stop on end of input, on the caller's stop token, or on
`RParen`; on `VerticalBar` parse the right-hand side with no stop token
(mapping `Empty` to `UnexpectedEnd`); otherwise parse the right-hand side
with stop token `VerticalBar` and join. -/
def parseLoop : Nat → RegexNode → List Char → Option Token → Except Error (RegexNode × List Char)
  | 0, _, _, _ => .error .Empty
  | fuel+1, node, rest, terminal =>
    match take_token rest with
    | none => .ok (node, rest)
    | some (tok, r) =>
      if some tok = terminal then .ok (node, rest)
      else
        match tok with
        | .VerticalBar =>
          match parse fuel r none with
          | .ok (right, r') => parseLoop fuel (.Or node right) r' terminal
          | .error .Empty => .error .UnexpectedEnd
          | .error e => .error e
        | .RParen => .ok (node, rest)
        | _ =>
          match parse fuel rest (some .VerticalBar) with
          | .ok (right, r') => parseLoop fuel (.Join node right) r' terminal
          | .error e => .error e

end

/-- Fuel sufficient for `parse` on input `s`: every two levels of the
`parse`/`parseLoop` recursion consume at least one character. -/
def parseFuel (s : List Char) : Nat := 2 * s.length + 2

/-- `Regex::from_str` from `regex.rs`: parse the whole pattern with no
stop token and keep the root node, discarding any unconsumed rest. -/
def fromStr (s : List Char) : Except Error RegexNode :=
  match parse (parseFuel s) s none with
  | .ok (root, _) => .ok root
  | .error e => .error e

/-! ## Automaton data model (`lib.rs`)

`BTreeMap` fields are embedded as key-sorted association lists. -/

/-- An NFA state (`struct NfaState`): a map from character to the ordered
list of successor handles, an ordered list of epsilon successors, and an
accept flag. -/
structure NfaState where
  branches : List (Char × List Nat)
  epsilon_transitions : List Nat
  accepts : Bool
deriving DecidableEq, Repr

/-- `struct Nfa`: an ordered sequence of states; handle 0 is initial. -/
structure Nfa where
  states : List NfaState
deriving DecidableEq, Repr

/-- A DFA state (`struct DfaState`): a map from character to the unique
successor handle, and an accept flag. -/
structure DfaState where
  branches : List (Char × Nat)
  accepts : Bool
deriving DecidableEq, Repr

/-- `struct Dfa`: an ordered sequence of states; handle 0 is initial. -/
structure Dfa where
  states : List DfaState
deriving DecidableEq, Repr

/-- Indexing `nfa.states[i]`; out-of-bounds (a Rust panic) yields an inert
default state so that the functions stay total. -/
def stateAt (m : Nfa) (i : Nat) : NfaState := m.states.getD i ⟨[], [], false⟩

/-- Indexing `dfa.states[i]`; out-of-bounds yields an inert default. -/
def dstateAt (d : Dfa) (i : Nat) : DfaState := d.states.getD i ⟨[], false⟩

/-- Lookup in a `BTreeMap` embedded as an association list
(`map.get(&k)`). -/
def alookup {β : Type} : List (Char × β) → Char → Option β
  | [], _ => none
  | (k, v) :: rest, c => if c = k then some v else alookup rest c

/-- `BTreeMap` insert-or-overwrite (`map.insert(k, v)`) on a key-sorted
association list. -/
def binsert {β : Type} : List (Char × β) → Char → β → List (Char × β)
  | [], c, v => [(c, v)]
  | (k, w) :: rest, c, v =>
    if c < k then (c, v) :: (k, w) :: rest
    else if c = k then (c, v) :: rest
    else (k, w) :: binsert rest c v

/-- `map.entry(c).or_default().push(t)` on a key-sorted association list
whose values are vectors: append `t` to the vector at `c`, creating the
entry when absent. -/
def bpush : List (Char × List Nat) → Char → Nat → List (Char × List Nat)
  | [], c, t => [(c, [t])]
  | (k, v) :: rest, c, t =>
    if c < k then (c, [t]) :: (k, v) :: rest
    else if c = k then (k, v ++ [t]) :: rest
    else (k, v) :: bpush rest c t

/-- Apply `f` to the element at index `i` (`vec[i] = ...` patterns);
out of bounds leaves the list unchanged. -/
def listModify {α : Type} : List α → Nat → (α → α) → List α
  | [], _, _ => []
  | a :: rest, 0, f => f a :: rest
  | a :: rest, i+1, f => a :: listModify rest i f

/-! ## NFA builder (`impl Nfa`) -/

/-- `Nfa::alloc_state`: append a fresh empty state, returning its handle
and the grown machine (mutation is embedded as state passing). -/
def Nfa.alloc_state (m : Nfa) : Nat × Nfa :=
  (m.states.length, ⟨m.states ++ [⟨[], [], false⟩]⟩)

/-- `self.states[state].branches.entry(c).or_default().push(s)`. -/
def Nfa.addBranch (m : Nfa) (s : Nat) (c : Char) (t : Nat) : Nfa :=
  ⟨listModify m.states s (fun st => { st with branches := bpush st.branches c t })⟩

/-- `self.states[s].epsilon_transitions.push(t)`. -/
def Nfa.addEps (m : Nfa) (s t : Nat) : Nfa :=
  ⟨listModify m.states s (fun st =>
    { st with epsilon_transitions := st.epsilon_transitions ++ [t] })⟩

/-- `Nfa::insert` (and its four helpers `insert_atom`, `insert_repeat`,
`insert_or`, `insert_join`): lower a regex node starting from `state`,
returning the exit handle and the grown machine. -/
def Nfa.insert : Nfa → Nat → RegexNode → Nat × Nfa
  | m, state, .Atom literal =>
    literal.foldl (fun (p : Nat × Nfa) c =>
      let (s, m') := p.2.alloc_state
      (s, m'.addBranch p.1 c s)) (state, m)
  | m, state, .Repeat pattern =>
    let (loop_start, m) := m.alloc_state
    let m := m.addEps state loop_start
    let (s, m) := m.insert loop_start pattern
    let m := m.addEps s loop_start
    (loop_start, m)
  | m, state, .Or left right =>
    let (s0, m) := m.insert state left
    let (s1, m) := m.insert state right
    let (s, m) := m.alloc_state
    let m := m.addEps s0 s
    let m := m.addEps s1 s
    (s, m)
  | m, state, .Join left right =>
    let (s, m) := m.insert state left
    m.insert s right

/-- `self.states[s].accepts = true`. -/
def Nfa.setAccept (m : Nfa) (s : Nat) : Nfa :=
  ⟨listModify m.states s (fun st => { st with accepts := true })⟩

/-- `Nfa::from_regex`: parse, allocate the initial state (handle 0),
lower the root from it, and mark the exit handle accepting. -/
def Nfa.from_regex (regex : List Char) : Except Error Nfa :=
  match fromStr regex with
  | .error e => .error e
  | .ok root =>
    let machine : Nfa := ⟨[]⟩
    let (initial_state, machine) := machine.alloc_state
    let (final_state, machine) := machine.insert initial_state root
    .ok (machine.setAccept final_state)

/-! ## Sorted-list embedding of `BTreeSet<usize>`

A `BTreeSet<usize>` is a strictly increasing sequence of naturals, so it
is embedded as a `List Nat` kept sorted by `<`; iteration order is the
list itself and set equality is list equality. -/

/-- `BTreeSet::insert` on a sorted list: insert `a` in order, keeping the
list unchanged when `a` is already present. -/
def sinsert (a : Nat) : List Nat → List Nat
  | [] => [a]
  | b :: rest =>
    if a < b then a :: b :: rest
    else if a = b then b :: rest
    else b :: sinsert a rest

/-- `set.extend(iter)`: insert every element of a list into a sorted
list. -/
def sextend (v : List Nat) (ts : List Nat) : List Nat :=
  ts.foldl (fun acc t => sinsert t acc) v

/-! ## Epsilon closure (`epsilon_closure` in `lib.rs`) -/

/-- Total number of epsilon edges of the NFA; used to bound the worklist
loop of `epsilon_closure`. -/
def totalEps (m : Nfa) : Nat :=
  (m.states.map (fun st => st.epsilon_transitions.length)).sum

/-- The worklist loop of `epsilon_closure`: pop a handle from the stack
(list head = top of the Rust `Vec`); skip it when already reached,
otherwise record it and push its epsilon successors. -/
def ecAux (m : Nfa) : Nat → List Nat → List Nat → List Nat
  | 0, _, reachable => reachable
  | _+1, [], reachable => reachable
  | fuel+1, s :: unchecked, reachable =>
    if s ∈ reachable then ecAux m fuel unchecked reachable
    else
      ecAux m fuel ((stateAt m s).epsilon_transitions.reverse ++ unchecked)
        (sinsert s reachable)

/-- `epsilon_closure` from `lib.rs`: the set of handles reachable from
`states` along epsilon edges, computed by the worklist loop (the supplied
fuel is proved sufficient below). -/
def epsilon_closure (m : Nfa) (states : List Nat) : List Nat :=
  ecAux m (states.length + totalEps m + 1) states.reverse []

/-- `set.iter().any(|&s| machine.states[s].accepts)`. -/
def acceptsAny (m : Nfa) (S : List Nat) : Bool :=
  S.any (fun s => (stateAt m s).accepts)

/-! ## `transitions` (`lib.rs`) -/

/-- `map.entry(c).or_default().extend(v)` on a key-sorted association
list with sorted-list (`BTreeSet`) values. -/
def mapInsertUnion : List (Char × List Nat) → Char → List Nat → List (Char × List Nat)
  | [], c, v => [(c, sextend [] v)]
  | (k, w) :: rest, c, v =>
    if c < k then (c, sextend [] v) :: (k, w) :: rest
    else if c = k then (k, sextend w v) :: rest
    else (k, w) :: mapInsertUnion rest c v

/-- The accumulation phase of `transitions`: for every state in `L` and
every `(char, targets)` entry of its branch map, union the targets into
the per-character entry. -/
def transAcc (m : Nfa) (L : List Nat) : List (Char × List Nat) :=
  L.foldl (fun acc s =>
    (stateAt m s).branches.foldl (fun acc p => mapInsertUnion acc p.1 p.2) acc) []

/-- `transitions` from `lib.rs`: accumulate the per-character unions of
branch targets over all states of `L`, then epsilon-close each union. -/
def transitions (m : Nfa) (L : List Nat) : List (Char × List Nat) :=
  (transAcc m L).map (fun p => (p.1, epsilon_closure m p.2))

/-! ## Subset construction (`Dfa::from_nfa`) -/

/-- `state_map.get(&set)` on the canonicalization map (association list in
insertion order; keys are inserted only when absent, hence distinct). -/
def lookupSet : List (List Nat × Nat) → List Nat → Option Nat
  | [], _ => none
  | (k, v) :: rest, sset => if sset = k then some v else lookupSet rest sset

/-- The `for (c, s) in transisions` loop body of `Dfa::from_nfa`: for each
entry, look the target set up in the canonicalization map; when absent,
allocate a new DFA state (accept = any member accepts), register it and
enqueue it; record the branch `c -> id`. -/
def processTrans (m : Nfa) :
    List (Char × List Nat) → List DfaState → List (List Nat × Nat) →
    List (List Nat) → List (Char × Nat) →
    List DfaState × List (List Nat × Nat) × List (List Nat) × List (Char × Nat)
  | [], states, map, queue, branches => (states, map, queue, branches)
  | (c, sset) :: ts, states, map, queue, branches =>
    match lookupSet map sset with
    | some id => processTrans m ts states map queue (binsert branches c id)
    | none =>
      let id := states.length
      processTrans m ts (states ++ [⟨[], acceptsAny m sset⟩]) (map ++ [(sset, id)])
        (queue ++ [sset]) (binsert branches c id)

/-- The `while let Some(s) = unchecked_states.pop_front()` loop of
`Dfa::from_nfa`, returning both the state vector and the final
canonicalization map. -/
def fromNfaLoop (m : Nfa) :
    Nat → List DfaState → List (List Nat × Nat) → List (List Nat) →
    List DfaState × List (List Nat × Nat)
  | 0, states, map, _ => (states, map)
  | _+1, states, map, [] => (states, map)
  | fuel+1, states, map, sset :: queue =>
    let state_id := (lookupSet map sset).getD 0
    let ts := transitions m sset
    match processTrans m ts states map queue [] with
    | (states', map', queue', branches) =>
      fromNfaLoop m fuel
        (listModify states' state_id (fun st => { st with branches := branches }))
        map' queue'

/-- All targets of epsilon edges of the NFA, as a list. -/
def allEpsT (m : Nfa) : List Nat :=
  m.states.foldr (fun st acc => st.epsilon_transitions ++ acc) []

/-- All targets of character branches of the NFA, as a list. -/
def allBranchT (m : Nfa) : List Nat :=
  m.states.foldr (fun st acc => st.branches.foldr (fun p a => p.2 ++ a) acc) []

/-- A finite universe (as a duplicate-free list) containing every handle
that can appear in a canonical state set during determinization of `m`. -/
def uNfa (m : Nfa) : List Nat := (0 :: (allEpsT m ++ allBranchT m)).dedup

/-- Fuel sufficient for the worklist loop of `Dfa::from_nfa`: at most one
iteration per distinct canonical subset of the universe, plus one. -/
def dfaFuel (m : Nfa) : Nat := 2 ^ (uNfa m).length + 1

/-- The full run of the `Dfa::from_nfa` worklist, seeded with the
epsilon closure of `{0}` assigned DFA handle 0. -/
def fromNfaState (m : Nfa) : List DfaState × List (List Nat × Nat) :=
  let initial_state := epsilon_closure m [0]
  fromNfaLoop m (dfaFuel m) [⟨[], acceptsAny m initial_state⟩]
    [(initial_state, 0)] [initial_state]

/-- `Dfa::from_nfa` from `lib.rs`. -/
def Dfa.from_nfa (m : Nfa) : Dfa := ⟨(fromNfaState m).1⟩

/-- The final canonicalization map (`state_map`) built by `Dfa::from_nfa`. -/
def fromNfaMap (m : Nfa) : List (List Nat × Nat) := (fromNfaState m).2

/-! ## NFA view of a DFA (`impl From<Dfa> for Nfa`) -/

/-- `From<Dfa> for Nfa`: each branch `c -> h` becomes the singleton list
`c -> [h]`, epsilon transitions are empty, accept flags are kept. -/
def Nfa.fromDfa (value : Dfa) : Nfa :=
  ⟨value.states.map (fun s =>
    ⟨s.branches.map (fun p => (p.1, [p.2])), [], s.accepts⟩)⟩

/-! ## `reachable_states` and `Dfa::optimize` (`lib.rs`) -/

/-- The list of branch targets of a DFA state (`branches.values()`,
iterated in key order). -/
def dTargets (d : Dfa) (s : Nat) : List Nat := (dstateAt d s).branches.map Prod.snd

/-- All branch targets appearing anywhere in the DFA, as a list. -/
def allDT (d : Dfa) : List Nat :=
  d.states.foldr (fun st acc => st.branches.map Prod.snd ++ acc) []

/-- Body of the inner `for` of `reachable_states`: skip an
already-reached target, otherwise record it and remember it for
pushing. -/
def rsStep (p : List Nat × List Nat) (t : Nat) : List Nat × List Nat :=
  if t ∈ p.1 then p else (sinsert t p.1, p.2 ++ [t])

/-- The worklist loop of `reachable_states`: pop a handle, and for each of
its branch targets not yet reached, record it and push it. -/
def rsAux (d : Dfa) : Nat → List Nat → List Nat → List Nat
  | 0, _, reachables => reachables
  | _+1, [], reachables => reachables
  | fuel+1, state :: unchecked, reachables =>
    match (dTargets d state).foldl rsStep (reachables, []) with
    | (reachables', pushed) => rsAux d fuel (pushed.reverse ++ unchecked) reachables'

/-- `reachable_states` from `lib.rs`: the handles reachable from `state`
by following branch transitions forward (the supplied fuel is proved
sufficient below). -/
def reachable_states (d : Dfa) (state : Nat) : List Nat :=
  rsAux d ((state :: allDT d).dedup.length + 1) [state] [state]

/-- `Dfa::optimize` from `lib.rs`: computes the reachable set and then
hits `todo!()`; the panic is embedded as `none`, so `optimize` never
produces a DFA. -/
def Dfa.optimize (d : Dfa) : Option Dfa :=
  let _reachables := reachable_states d 0
  none

/-! ## Compile entry point (`compile_regex` in `lib.rs`) -/

/-- `struct StateMachines`. -/
structure StateMachines where
  nfa : Nfa
  dfa : Nfa
deriving DecidableEq, Repr

/-- `compile_regex` from `lib.rs`: build the NFA from the pattern (errors
mapped to their display strings), determinize it, re-express the DFA in
the NFA shape, and return both. -/
def compile_regex (input : List Char) : Except String StateMachines :=
  match Nfa.from_regex input with
  | .error e => .error e.message
  | .ok nfa => .ok ⟨nfa, Nfa.fromDfa (Dfa.from_nfa nfa)⟩

/-! ## Acceptance semantics (the specification side)

DFA acceptance is deterministic simulation; NFA acceptance is the
standard epsilon-closure simulation.  These are the notions of acceptance
used by the language-equivalence claims. -/

/-- Deterministic simulation of a DFA from handle `h`: follow the unique
branch per character, rejecting when none exists; accept at the end iff
the current state accepts. -/
def dfaRun (d : Dfa) : Nat → List Char → Bool
  | h, [] => (dstateAt d h).accepts
  | h, c :: w =>
    match alookup (dstateAt d h).branches c with
    | some h' => dfaRun d h' w
    | none => false

/-- DFA acceptance: deterministic simulation from the initial handle 0. -/
def dfaAccepts (d : Dfa) (w : List Char) : Bool := dfaRun d 0 w

/-- All targets recorded under key `c` in an association list
(concatenating every entry with that key). -/
def keyTargets (brs : List (Char × List Nat)) (c : Char) : List Nat :=
  brs.foldr (fun p acc => if p.1 = c then p.2 ++ acc else acc) []

/-- All branch targets of an NFA state on character `c`. -/
def targetsOfAll (st : NfaState) (c : Char) : List Nat :=
  keyTargets st.branches c

/-- One step of the NFA subset simulation: all branch targets on `c` of
all states of the current set (as a list; the subsequent epsilon closure
canonicalizes it). -/
def stepSet (m : Nfa) (S : List Nat) (c : Char) : List Nat :=
  S.foldr (fun s acc => targetsOfAll (stateAt m s) c ++ acc) []

/-- Standard epsilon-closure simulation of an NFA on a word, starting
from an (already closed) set of handles. -/
def nfaSim (m : Nfa) : List Nat → List Char → Bool
  | S, [] => acceptsAny m S
  | S, c :: w => nfaSim m (epsilon_closure m (stepSet m S c)) w

/-- NFA acceptance: epsilon-closure simulation from the closure of the
initial handle 0. -/
def nfaAccepts (m : Nfa) (w : List Char) : Bool :=
  nfaSim m (epsilon_closure m [0]) w

/-! ## Proof-side notions -/

/-- One epsilon edge of the NFA. -/
def epsStep (m : Nfa) (s t : Nat) : Prop := t ∈ (stateAt m s).epsilon_transitions

/-- Epsilon reachability: the reflexive-transitive closure of `epsStep`. -/
def epsReach (m : Nfa) : Nat → Nat → Prop := Relation.ReflTransGen (epsStep m)

/-- One branch edge of the DFA (some character leads from `i` to `j`). -/
def dfaEdge (d : Dfa) (i j : Nat) : Prop := j ∈ dTargets d i

/-- Forward reachability along DFA branch edges. -/
def dfaReach (d : Dfa) : Nat → Nat → Prop := Relation.ReflTransGen (dfaEdge d)

/-- The keys of an association list are strictly increasing (the shape
invariant of an embedded `BTreeMap`). -/
def KSorted {β : Type} (l : List (Char × β)) : Prop :=
  l.Pairwise (fun a b => a.1 < b.1)

/-- A well-shaped `BTreeSet<usize>` embedding: strictly sorted list. -/
def SSorted (l : List Nat) : Prop := l.Pairwise (· < ·)

/-- Total length of the epsilon lists of the states in `X`; the
termination measure of the `epsilon_closure` worklist. -/
def epsWeight (m : Nfa) (X : Finset Nat) : Nat :=
  X.sum (fun s => (stateAt m s).epsilon_transitions.length)

/-- The branch map recorded for DFA handle `id` agrees with the
`transitions` of its canonical set `S`, with target sets resolved to
handles through the canonicalization map. -/
def BranchesCorrect (m : Nfa) (states : List DfaState)
    (map : List (List Nat × Nat)) (S : List Nat) (id : Nat) : Prop :=
  (∀ c, alookup (transitions m S) c = none →
      alookup (states.getD id ⟨[], false⟩).branches c = none)
  ∧ (∀ c T, alookup (transitions m S) c = some T →
      ∃ j, lookupSet map T = some j
        ∧ alookup (states.getD id ⟨[], false⟩).branches c = some j)

/-- The loop invariant of the `Dfa::from_nfa` worklist: the
canonicalization map assigns handles `0, 1, 2, …` in insertion order to
distinct canonical (epsilon-closed, universe-bounded) sets; the queue
holds pending distinct keys; every allocated state's accept flag matches
its set; processed states carry the correct branch maps, pending ones are
still empty; and every non-initial state has an already-branched parent
with a smaller handle. -/
structure FromNfaInv (m : Nfa) (states : List DfaState)
    (map : List (List Nat × Nat)) (queue : List (List Nat)) : Prop where
  ids : map.map Prod.snd = List.range states.length
  keysNodup : (map.map Prod.fst).Nodup
  queueNodup : queue.Nodup
  queueKeys : ∀ S ∈ queue, S ∈ map.map Prod.fst
  acceptsOk : ∀ p ∈ map, (states.getD p.2 ⟨[], false⟩).accepts = acceptsAny m p.1
  correct : ∀ p ∈ map, p.1 ∉ queue → BranchesCorrect m states map p.1 p.2
  pending : ∀ p ∈ map, p.1 ∈ queue → (states.getD p.2 ⟨[], false⟩).branches = []
  ksorted : ∀ st ∈ states, KSorted st.branches
  headOk : map.head? = some (epsilon_closure m [0], 0)
  keysBound : ∀ p ∈ map, ∀ x ∈ p.1, x ∈ uNfa m
  keysClosed : ∀ p ∈ map, epsilon_closure m p.1 = p.1
  parent : ∀ j, 0 < j → j < states.length →
      ∃ i, i < j ∧ ∃ c, alookup (states.getD i ⟨[], false⟩).branches c = some j

/-! # Theorems -/

/-! ## Parser lemmas -/

/-- Unfolding of the loop when the next token is an `Asterisk` that is not
the stop token: the concatenation branch re-parses starting at the
asterisk, and a primary cannot start with `Asterisk`. -/
theorem parseLoop_asterisk (fuel : Nat) (node : RegexNode) (rest r : List Char)
    (terminal : Option Token) (htok : take_token rest = some (.Asterisk, r))
    (hterm : terminal ≠ some Token.Asterisk) :
    parseLoop (fuel + 2) node rest terminal = .error .UnexpectedToken := by
  show parseLoop (fuel + 1 + 1) node rest terminal = _
  have hne : (some Token.Asterisk = terminal) = False :=
    eq_false (fun h => hterm h.symm)
  rw [parseLoop]
  simp only [htok, hne, if_false]
  rw [parse]
  simp only [htok]

/-- Unfolding of the loop when the next token is a `VerticalBar` that is
not the stop token and the recursive parse of the right-hand side fails:
an `Empty` error surfaces as `UnexpectedEnd`, any other error propagates
unchanged. -/
theorem parseLoop_bar_error (fuel : Nat) (node : RegexNode) (rest r : List Char)
    (terminal : Option Token) (e : Error)
    (htok : take_token rest = some (.VerticalBar, r))
    (hterm : terminal ≠ some Token.VerticalBar)
    (hrec : parse fuel r none = .error e) :
    parseLoop (fuel + 1) node rest terminal
      = .error (if e = .Empty then .UnexpectedEnd else e) := by
  have hne : (some Token.VerticalBar = terminal) = False :=
    eq_false (fun h => hterm h.symm)
  rw [parseLoop]
  simp only [htok, hne, if_false, hrec]
  cases e <;> simp

/-- A parse call with no tokens available reports `Empty`. -/
theorem parse_empty_input (fuel : Nat) (s : List Char) (terminal : Option Token)
    (h : take_token s = none) :
    parse (fuel + 1) s terminal = .error .Empty := by
  rw [parse]
  simp only [h]

/-- The `LParen` branch hands the *caller's* stop token to the recursive
parse of the group body, so an error of that inner parse propagates. -/
theorem parse_lparen_error (fuel : Nat) (s rest : List Char)
    (terminal : Option Token) (e : Error)
    (htok : take_token s = some (.LParen, rest))
    (hrec : parse fuel rest terminal = .error e) :
    parse (fuel + 1) s terminal = .error e := by
  rw [parse]
  simp only [htok, hrec]

/-! ## Claims C1, C5, C6, C7 (parser) -/

/-- **C1, counterexample.** The claim asserts that a parenthesized group as
the right operand of a concatenation parses, with `"a(b|c)"` yielding
`Join(Atom "a", Or(Atom "b", Atom "c"))`.  In fact `"a(b|c)"` fails with
`UnexpectedToken`, because the `LParen` branch passes the caller's stop
token (here `VerticalBar`, set by the concatenation) down to the inner
parse, which therefore stops at `|`. -/
theorem claim_C1_counterexample :
    fromStr "a(b|c)".toList = .error .UnexpectedToken := by rfl

/-- **C1 (amended).** A primary that begins with an `LParen` token parses
the inner expression with the *caller's* stop token passed down (so an
error of the inner parse under that stop token propagates), then requires
a matching `RParen`.  Consequently `"a(b|c)"` — a parenthesized
alternation as the right operand of a concatenation — fails with
`UnexpectedToken`, while the same group parses at top level:
`"(b|c)"` yields `Or(Atom "b", Atom "c")`. -/
theorem claim_C1 :
    (∀ fuel s rest terminal e, take_token s = some (.LParen, rest) →
        parse fuel rest terminal = .error e →
        parse (fuel + 1) s terminal = .error e)
    ∧ fromStr "a(b|c)".toList = .error .UnexpectedToken
    ∧ fromStr "(b|c)".toList = .ok (.Or (.Atom ['b']) (.Atom ['c'])) :=
  ⟨fun fuel s rest terminal e h1 h2 => parse_lparen_error fuel s rest terminal e h1 h2,
   by rfl, by rfl⟩

/-- Witness for C1: the error-propagation conjunct applied at the concrete
input `"()"` (the inner parse of `")"` fails with `UnexpectedToken`). -/
theorem claim_C1_witness :
    parse 2 "()".toList none = .error .UnexpectedToken :=
  claim_C1.1 1 "()".toList [')'] none .UnexpectedToken (by rfl) (by rfl)

/-- **C5.** A second consecutive `*` is reached by the trailing loop of
`parse`: it is not the stop token, so the loop's concatenation branch
re-parses starting at the `*`, and a primary cannot start with
`Asterisk`, so the result is `UnexpectedToken`; in particular `"a**"`
fails with `UnexpectedToken`. -/
theorem claim_C5 :
    (∀ fuel node rest r terminal, take_token rest = some (.Asterisk, r) →
        terminal ≠ some Token.Asterisk →
        parseLoop (fuel + 2) node rest terminal = .error .UnexpectedToken)
    ∧ fromStr "a**".toList = .error .UnexpectedToken :=
  ⟨fun fuel node rest r terminal h1 h2 => parseLoop_asterisk fuel node rest r terminal h1 h2,
   by rfl⟩

/-- Witness for C5: the loop conjunct applied at the concrete state
reached after parsing `a*` of `"a**"`. -/
theorem claim_C5_witness :
    parseLoop 2 (.Atom ['a']) "**".toList none = .error .UnexpectedToken :=
  claim_C5.1 0 (.Atom ['a']) "**".toList "*".toList none (by rfl) (by decide)

/-- **C6, counterexample.** The claim quantifies over *every* pattern
ending in `|` with nothing after it; but `"a)|"` is such a pattern and
parses successfully: the loop stops at the unmatched `)` and
`Regex::from_str` discards the unconsumed rest, so the trailing `|` is
never reached. -/
theorem claim_C6_counterexample :
    fromStr "a)|".toList = .ok (.Atom ['a']) := by rfl

/-- **C6 (amended).** Whenever the parser's loop reaches a `|` (that is
not the stop token) and the recursive parse of the right-hand side
fails, an `Empty` error is surfaced as `UnexpectedEnd` and any other
error propagates unchanged; in particular `"a|"` fails with
`UnexpectedEnd`.  A pattern ending in `|` whose trailing `|` is never
reached can still parse: `"a)|"` succeeds because the loop stops at the
unmatched `)` and the unconsumed rest is discarded. -/
theorem claim_C6 :
    (∀ fuel node rest r terminal e, take_token rest = some (.VerticalBar, r) →
        terminal ≠ some Token.VerticalBar → parse fuel r none = .error e →
        parseLoop (fuel + 1) node rest terminal
          = .error (if e = .Empty then .UnexpectedEnd else e))
    ∧ fromStr "a|".toList = .error .UnexpectedEnd
    ∧ fromStr "a)|".toList = .ok (.Atom ['a']) :=
  ⟨fun fuel node rest r terminal e h1 h2 h3 =>
      parseLoop_bar_error fuel node rest r terminal e h1 h2 h3,
   by rfl, by rfl⟩

/-- Witness for C6: the propagation conjunct applied at the concrete
state reached after parsing `a` of `"a|"` (the right-hand side is empty,
so the recursive parse reports `Empty`). -/
theorem claim_C6_witness :
    parseLoop 2 (.Atom ['a']) "|".toList none = .error .UnexpectedEnd := by
  simpa using claim_C6.1 1 (.Atom ['a']) "|".toList [] none .Empty
    (by rfl) (by decide) (by rfl)

/-- **C7, counterexample.** The claim asserts `compile("()")` fails with
`Empty`; in fact it fails with `UnexpectedToken` (the inner parse of the
group body starts at the `)` token, which cannot start a primary). -/
theorem claim_C7_counterexample :
    compile_regex "()".toList = .error Error.UnexpectedToken.message
    ∧ Error.UnexpectedToken.message ≠ Error.Empty.message :=
  ⟨by rfl, by decide⟩

/-- **C7 (amended).** `Empty` is returned exactly when no tokens are
available to a parse call: `compile("")` fails with `Empty`, and
`compile("(")` — where the required group body has nothing to consume —
also fails with `Empty` (the inner `Empty` aborts the whole compile).
`compile("()")`, however, fails with `UnexpectedToken`: the group body is
nonempty, its first token being the `)` that cannot start a primary. -/
theorem claim_C7 :
    (∀ fuel s terminal, take_token s = none →
        parse (fuel + 1) s terminal = .error .Empty)
    ∧ compile_regex "".toList = .error Error.Empty.message
    ∧ compile_regex "(".toList = .error Error.Empty.message
    ∧ compile_regex "()".toList = .error Error.UnexpectedToken.message :=
  ⟨fun fuel s terminal h => parse_empty_input fuel s terminal h,
   by rfl, by rfl, by rfl⟩

/-- Witness for C7: the `Empty` conjunct applied at the empty input. -/
theorem claim_C7_witness : parse 1 [] none = .error .Empty :=
  claim_C7.1 0 [] none (by rfl)

/-! ## Claim C9 (NFA view of a DFA) -/

/-- Looking up in an association list whose values were mapped. -/
theorem alookup_map_value {β γ : Type} (f : β → γ) :
    ∀ (l : List (Char × β)) (c : Char),
      alookup (l.map (fun p => (p.1, f p.2))) c = (alookup l c).map f
  | [], _ => rfl
  | (k, v) :: rest, c => by
    simp only [List.map_cons, alookup]
    by_cases h : c = k
    · simp [h]
    · simp [h, alookup_map_value f rest c]

/-- The `i`-th state of the NFA view of a DFA, stated without a bounds
hypothesis (out of range, both sides are the inert default). -/
theorem fromDfa_stateAt (d : Dfa) (i : Nat) :
    stateAt (Nfa.fromDfa d) i
      = ⟨(dstateAt d i).branches.map (fun p => (p.1, [p.2])), [],
         (dstateAt d i).accepts⟩ := by
  simp only [stateAt, dstateAt, Nfa.fromDfa, List.getD_eq_getElem?_getD,
    List.getElem?_map]
  cases d.states[i]? <;> rfl

/-- **C9.** The NFA view `Nfa::from(dfa)` has the same number of states in
the same handle order; each state's branch map sends each character of
the DFA state's branch map to the singleton list of the DFA target, the
epsilon-transition list is empty, and the accept flag is preserved. -/
theorem claim_C9 (d : Dfa) :
    (Nfa.fromDfa d).states.length = d.states.length
    ∧ ∀ i, i < d.states.length →
        (stateAt (Nfa.fromDfa d) i).branches
            = (dstateAt d i).branches.map (fun p => (p.1, [p.2]))
        ∧ (∀ c, alookup (stateAt (Nfa.fromDfa d) i).branches c
            = (alookup (dstateAt d i).branches c).map (fun h => [h]))
        ∧ (stateAt (Nfa.fromDfa d) i).epsilon_transitions = []
        ∧ (stateAt (Nfa.fromDfa d) i).accepts = (dstateAt d i).accepts := by
  refine ⟨by simp [Nfa.fromDfa], fun i _ => ?_⟩
  rw [fromDfa_stateAt]
  exact ⟨rfl, fun c => alookup_map_value (fun h => [h]) (dstateAt d i).branches c,
    rfl, rfl⟩

/-- Witness for C9 at a concrete one-state DFA. -/
theorem claim_C9_witness :
    (stateAt (Nfa.fromDfa ⟨[⟨[('a', 0)], true⟩]⟩) 0).branches = [('a', [0])]
    ∧ (stateAt (Nfa.fromDfa ⟨[⟨[('a', 0)], true⟩]⟩) 0).epsilon_transitions = []
    ∧ (stateAt (Nfa.fromDfa ⟨[⟨[('a', 0)], true⟩]⟩) 0).accepts = true := by
  have h := (claim_C9 ⟨[⟨[('a', 0)], true⟩]⟩).2 0 (by decide)
  exact ⟨by rw [h.1]; rfl, h.2.2.1, by rw [h.2.2.2]; rfl⟩

/-! ## Sorted-list (`BTreeSet`) lemmas -/

theorem mem_sinsert (x a : Nat) : ∀ l : List Nat, x ∈ sinsert a l ↔ x = a ∨ x ∈ l
  | [] => by simp [sinsert]
  | b :: rest => by
    rw [sinsert]
    by_cases h1 : a < b
    · rw [if_pos h1]
      simp
    · rw [if_neg h1]
      by_cases h2 : a = b
      · rw [if_pos h2]
        subst h2
        simp only [List.mem_cons]
        tauto
      · rw [if_neg h2]
        simp only [List.mem_cons, mem_sinsert x a rest]
        tauto

theorem SSorted.sinsert (a : Nat) : ∀ {l : List Nat}, SSorted l → SSorted (sinsert a l)
  | [], _ => by simp [SSorted, AutomatonTrial.sinsert]
  | b :: rest, h => by
    rw [SSorted, List.pairwise_cons] at h
    rw [AutomatonTrial.sinsert]
    by_cases h1 : a < b
    · rw [if_pos h1]
      refine List.Pairwise.cons ?_ (List.Pairwise.cons h.1 h.2)
      intro y hy
      rcases List.mem_cons.1 hy with rfl | hy
      · exact h1
      · exact h1.trans (h.1 y hy)
    · rw [if_neg h1]
      by_cases h2 : a = b
      · rw [if_pos h2]
        exact List.Pairwise.cons h.1 h.2
      · rw [if_neg h2]
        have hba : b < a := by omega
        refine List.Pairwise.cons ?_ (SSorted.sinsert a h.2)
        intro y hy
        rcases (mem_sinsert y a rest).1 hy with rfl | hy
        · exact hba
        · exact h.1 y hy

theorem mem_sextend (x : Nat) (ts : List Nat) : ∀ v : List Nat,
    x ∈ sextend v ts ↔ x ∈ v ∨ x ∈ ts := by
  induction ts with
  | nil => simp [sextend]
  | cons t ts ih =>
    intro v
    simp only [sextend, List.foldl_cons] at *
    rw [ih (sinsert t v), mem_sinsert]
    simp only [List.mem_cons]
    tauto

theorem SSorted.sextend (ts : List Nat) : ∀ {v : List Nat},
    SSorted v → SSorted (sextend v ts) := by
  induction ts with
  | nil => intro v h; exact h
  | cons t ts ih =>
    intro v h
    exact ih (h.sinsert t)

theorem SSorted.nil : SSorted [] := List.Pairwise.nil

/-- Two strictly sorted lists with the same members are equal. -/
theorem SSorted.eq_of_mem_iff : ∀ {l₁ l₂ : List Nat}, SSorted l₁ → SSorted l₂ →
    (∀ x, x ∈ l₁ ↔ x ∈ l₂) → l₁ = l₂
  | [], [], _, _, _ => rfl
  | [], b :: t₂, _, _, hm => absurd ((hm b).2 (List.mem_cons_self b t₂)) (List.not_mem_nil b)
  | a :: t₁, [], _, _, hm => absurd ((hm a).1 (List.mem_cons_self a t₁)) (List.not_mem_nil a)
  | a :: t₁, b :: t₂, h₁, h₂, hm => by
    rw [SSorted, List.pairwise_cons] at h₁ h₂
    have hab : a = b := by
      rcases List.mem_cons.1 ((hm a).1 (List.mem_cons_self a t₁)) with h | h
      · exact h
      · have hba := h₂.1 a h
        rcases List.mem_cons.1 ((hm b).2 (List.mem_cons_self b t₂)) with h' | h'
        · omega
        · have := h₁.1 b h'
          omega
    subst hab
    have htail : ∀ x, x ∈ t₁ ↔ x ∈ t₂ := by
      intro x
      constructor
      · intro hx
        have hax := h₁.1 x hx
        rcases List.mem_cons.1 ((hm x).1 (List.mem_cons.2 (Or.inr hx))) with h | h
        · omega
        · exact h
      · intro hx
        have hax := h₂.1 x hx
        rcases List.mem_cons.1 ((hm x).2 (List.mem_cons.2 (Or.inr hx))) with h | h
        · omega
        · exact h
    rw [SSorted.eq_of_mem_iff h₁.2 h₂.2 htail]

/-! ## Epsilon-closure characterization -/

/-- Membership of `allEpsT`. -/
theorem mem_allEpsT (m : Nfa) (x : Nat) :
    x ∈ allEpsT m ↔ ∃ st ∈ m.states, x ∈ st.epsilon_transitions := by
  rw [allEpsT]
  induction m.states with
  | nil => simp
  | cons st l ih => simp [List.foldr_cons, ih]

/-- An epsilon step always lands in `allEpsT`. -/
theorem epsStep_mem_allEpsT {m : Nfa} {s t : Nat} (h : epsStep m s t) :
    t ∈ allEpsT m := by
  rw [mem_allEpsT]
  rw [epsStep, stateAt] at h
  by_cases hs : s < m.states.length
  · exact ⟨m.states[s], List.getElem_mem hs, by rwa [List.getD_eq_getElem _ _ hs] at h⟩
  · rw [List.getD_eq_default _ _ (by omega)] at h
    exact absurd h (List.not_mem_nil t)

/-- Out-of-range indexing yields the inert default NFA state. -/
theorem stateAt_default {m : Nfa} {i : Nat} (h : m.states.length ≤ i) :
    stateAt m i = ⟨[], [], false⟩ := List.getD_eq_default _ _ h

/-- Summing a function of the `i`-th list element over `range l.length`
is summing over the list. -/
theorem sum_range_getD {α : Type} (g : α → Nat) (d : α) :
    ∀ l : List α, ∑ i ∈ Finset.range l.length, g (l.getD i d) = (l.map g).sum
  | [] => by simp
  | a :: tl => by
    rw [List.length_cons, Finset.sum_range_succ']
    simp only [List.getD_cons_succ, List.getD_cons_zero, List.map_cons, List.sum_cons]
    rw [sum_range_getD g d tl]
    omega

/-- `epsWeight` of any set is at most `totalEps`. -/
theorem epsWeight_le_totalEps (m : Nfa) (X : Finset Nat) :
    epsWeight m X ≤ totalEps m := by
  have hzero : ∀ s ∈ X, ¬ s < m.states.length →
      (stateAt m s).epsilon_transitions.length = 0 := by
    intro s _ hs
    rw [stateAt_default (by omega)]
    rfl
  calc epsWeight m X
      = (X.filter (fun s => s < m.states.length)).sum
          (fun s => (stateAt m s).epsilon_transitions.length) := by
        rw [epsWeight]
        rw [← Finset.sum_filter_add_sum_filter_not X (fun s => s < m.states.length)]
        have : (X.filter (fun s => ¬ s < m.states.length)).sum
            (fun s => (stateAt m s).epsilon_transitions.length) = 0 := by
          refine Finset.sum_eq_zero ?_
          intro s hs
          rw [Finset.mem_filter] at hs
          exact hzero s hs.1 hs.2
        omega
    _ ≤ (Finset.range m.states.length).sum
          (fun s => (stateAt m s).epsilon_transitions.length) := by
        refine Finset.sum_le_sum_of_subset ?_
        intro s hs
        rw [Finset.mem_filter] at hs
        exact Finset.mem_range.2 hs.2
    _ = totalEps m := by
        rw [totalEps]
        simpa [stateAt] using
          sum_range_getD (fun st => st.epsilon_transitions.length)
            ⟨[], [], false⟩ m.states

/-- The closure worklist only grows the reached set. -/
theorem ecAux_mono (m : Nfa) : ∀ (fuel : Nat) (stack reach : List Nat) (x : Nat),
    x ∈ reach → x ∈ ecAux m fuel stack reach
  | 0, _, _, _, h => h
  | _+1, [], _, _, h => h
  | fuel+1, s :: stack, reach, x, h => by
    rw [ecAux]
    by_cases hs : s ∈ reach
    · rw [if_pos hs]
      exact ecAux_mono m fuel stack reach x h
    · rw [if_neg hs]
      exact ecAux_mono m fuel _ _ x ((mem_sinsert x s reach).2 (Or.inr h))

/-- Soundness: everything the closure worklist reaches is epsilon-reachable
from the stack (or was already reached). -/
theorem ecAux_sound (m : Nfa) : ∀ (fuel : Nat) (stack reach : List Nat) (x : Nat),
    x ∈ ecAux m fuel stack reach → x ∈ reach ∨ ∃ s ∈ stack, epsReach m s x
  | 0, _, _, _, h => Or.inl h
  | _+1, [], _, _, h => Or.inl h
  | fuel+1, s :: stack, reach, x, h => by
    rw [ecAux] at h
    by_cases hs : s ∈ reach
    · rw [if_pos hs] at h
      rcases ecAux_sound m fuel stack reach x h with h | ⟨t, ht, hr⟩
      · exact Or.inl h
      · exact Or.inr ⟨t, List.mem_cons.2 (Or.inr ht), hr⟩
    · rw [if_neg hs] at h
      rcases ecAux_sound m fuel _ _ x h with h | ⟨t, ht, hr⟩
      · rcases (mem_sinsert x s reach).1 h with rfl | h
        · exact Or.inr ⟨x, List.mem_cons.2 (Or.inl rfl), Relation.ReflTransGen.refl⟩
        · exact Or.inl h
      · rcases List.mem_append.1 ht with ht | ht
        · refine Or.inr ⟨s, List.mem_cons.2 (Or.inl rfl), Relation.ReflTransGen.head ?_ hr⟩
          exact List.mem_reverse.1 ht
        · exact Or.inr ⟨t, List.mem_cons.2 (Or.inr ht), hr⟩

/-- The closure worklist keeps the reached set sorted. -/
theorem ecAux_sorted (m : Nfa) : ∀ (fuel : Nat) (stack reach : List Nat),
    SSorted reach → SSorted (ecAux m fuel stack reach)
  | 0, _, _, h => h
  | _+1, [], _, h => h
  | fuel+1, s :: stack, reach, h => by
    rw [ecAux]
    by_cases hs : s ∈ reach
    · rw [if_pos hs]
      exact ecAux_sorted m fuel stack reach h
    · rw [if_neg hs]
      exact ecAux_sorted m fuel _ _ (h.sinsert s)

/-- Completeness: with enough fuel the worklist empties, so that every
stack element is reached and the result is closed under epsilon steps. -/
theorem ecAux_complete (m : Nfa) (P : Finset Nat)
    (hP : ∀ s t, epsStep m s t → t ∈ P) :
    ∀ (fuel : Nat) (stack reach : List Nat),
      (∀ s ∈ stack, s ∈ P) →
      (∀ s ∈ reach, ∀ t, epsStep m s t → t ∈ reach ∨ t ∈ stack) →
      stack.length + epsWeight m (P.filter (fun s => s ∉ reach)) ≤ fuel →
      (∀ s ∈ stack, s ∈ ecAux m fuel stack reach)
      ∧ (∀ s ∈ ecAux m fuel stack reach, ∀ t, epsStep m s t →
          t ∈ ecAux m fuel stack reach) := by
  intro fuel
  induction fuel with
  | zero =>
    intro stack reach hstack hinv hfuel
    have : stack = [] := List.length_eq_zero.1 (by omega)
    subst this
    refine ⟨by simp, ?_⟩
    intro s hs t ht
    rcases hinv s hs t ht with h | h
    · exact h
    · exact absurd h (List.not_mem_nil t)
  | succ fuel ih =>
    intro stack reach hstack hinv hfuel
    match stack with
    | [] =>
      refine ⟨by simp, ?_⟩
      intro s hs t ht
      rcases hinv s hs t ht with h | h
      · exact h
      · exact absurd h (List.not_mem_nil t)
    | s :: stack =>
      rw [List.length_cons] at hfuel
      by_cases hs : s ∈ reach
      · have hgoal : ecAux m (fuel+1) (s :: stack) reach = ecAux m fuel stack reach := by
          rw [ecAux, if_pos hs]
        have hinv' : ∀ u ∈ reach, ∀ t, epsStep m u t → t ∈ reach ∨ t ∈ stack := by
          intro u hu t ht
          rcases hinv u hu t ht with h | h
          · exact Or.inl h
          · rcases List.mem_cons.1 h with rfl | h
            · exact Or.inl hs
            · exact Or.inr h
        obtain ⟨h1, h2⟩ := ih stack reach (fun u hu => hstack u (List.mem_cons.2 (Or.inr hu)))
          hinv' (by omega)
        rw [hgoal]
        refine ⟨?_, h2⟩
        intro u hu
        rcases List.mem_cons.1 hu with rfl | hu
        · exact ecAux_mono m fuel stack reach u hs
        · exact h1 u hu
      · have hgoal : ecAux m (fuel+1) (s :: stack) reach
            = ecAux m fuel ((stateAt m s).epsilon_transitions.reverse ++ stack)
                (sinsert s reach) := by
          rw [ecAux, if_neg hs]
        have hsP : s ∈ P.filter (fun u => u ∉ reach) := by
          rw [Finset.mem_filter]
          exact ⟨hstack s (List.mem_cons.2 (Or.inl rfl)), by simpa using hs⟩
        have hfilter : P.filter (fun u => u ∉ sinsert s reach)
            = (P.filter (fun u => u ∉ reach)).erase s := by
          ext x
          rw [Finset.mem_erase, Finset.mem_filter, Finset.mem_filter, mem_sinsert]
          constructor
          · intro ⟨hxP, hx⟩
            push_neg at hx
            exact ⟨hx.1, hxP, hx.2⟩
          · intro ⟨hxs, hxP, hx⟩
            refine ⟨hxP, ?_⟩
            push_neg
            exact ⟨hxs, hx⟩
        have hsum : epsWeight m ((P.filter (fun u => u ∉ reach)).erase s)
            + (stateAt m s).epsilon_transitions.length
            = epsWeight m (P.filter (fun u => u ∉ reach)) := by
          simpa [epsWeight] using Finset.sum_erase_add (P.filter (fun u => u ∉ reach))
            (fun u => (stateAt m u).epsilon_transitions.length) hsP
        have hstack' : ∀ u ∈ (stateAt m s).epsilon_transitions.reverse ++ stack, u ∈ P := by
          intro u hu
          rcases List.mem_append.1 hu with hu | hu
          · exact hP s u (List.mem_reverse.1 hu)
          · exact hstack u (List.mem_cons.2 (Or.inr hu))
        have hinv' : ∀ u ∈ sinsert s reach, ∀ t, epsStep m u t →
            t ∈ sinsert s reach ∨ t ∈ (stateAt m s).epsilon_transitions.reverse ++ stack := by
          intro u hu t ht
          rcases (mem_sinsert u s reach).1 hu with rfl | hu
          · exact Or.inr (List.mem_append.2 (Or.inl (List.mem_reverse.2 ht)))
          · rcases hinv u hu t ht with h | h
            · exact Or.inl ((mem_sinsert t s reach).2 (Or.inr h))
            · rcases List.mem_cons.1 h with rfl | h
              · exact Or.inl ((mem_sinsert t t reach).2 (Or.inl rfl))
              · exact Or.inr (List.mem_append.2 (Or.inr h))
        have hfuel' : ((stateAt m s).epsilon_transitions.reverse ++ stack).length
            + epsWeight m (P.filter (fun u => u ∉ sinsert s reach)) ≤ fuel := by
          rw [List.length_append, List.length_reverse, hfilter]
          omega
        obtain ⟨h1, h2⟩ := ih _ _ hstack' hinv' hfuel'
        rw [hgoal]
        refine ⟨?_, h2⟩
        intro u hu
        rcases List.mem_cons.1 hu with rfl | hu
        · exact ecAux_mono m fuel _ _ u ((mem_sinsert u u reach).2 (Or.inl rfl))
        · exact h1 u (List.mem_append.2 (Or.inr hu))

/-- Characterization of `epsilon_closure`: its members are exactly the
handles epsilon-reachable from the input list. -/
theorem mem_epsilon_closure (m : Nfa) (L : List Nat) (x : Nat) :
    x ∈ epsilon_closure m L ↔ ∃ s ∈ L, epsReach m s x := by
  constructor
  · intro h
    rcases ecAux_sound m _ _ _ x h with h | ⟨s, hs, hr⟩
    · exact absurd h (List.not_mem_nil x)
    · exact ⟨s, List.mem_reverse.1 hs, hr⟩
  · rintro ⟨s, hs, hr⟩
    have hP : ∀ u t, epsStep m u t → t ∈ L.toFinset ∪ (allEpsT m).toFinset := by
      intro u t ht
      exact Finset.mem_union.2 (Or.inr (List.mem_toFinset.2 (epsStep_mem_allEpsT ht)))
    obtain ⟨h1, h2⟩ := ecAux_complete m (L.toFinset ∪ (allEpsT m).toFinset) hP
      (L.length + totalEps m + 1) L.reverse []
      (fun u hu => Finset.mem_union.2
        (Or.inl (List.mem_toFinset.2 (List.mem_reverse.1 hu))))
      (by intro u hu; exact absurd hu (List.not_mem_nil u))
      (by
        rw [List.length_reverse]
        have : (L.toFinset ∪ (allEpsT m).toFinset).filter (fun u => u ∉ ([] : List Nat))
            = L.toFinset ∪ (allEpsT m).toFinset := by
          refine Finset.filter_true_of_mem ?_
          intro u _
          exact List.not_mem_nil u
        rw [this]
        have := epsWeight_le_totalEps m (L.toFinset ∪ (allEpsT m).toFinset)
        omega)
    rw [epsilon_closure]
    induction hr with
    | refl => exact h1 s (List.mem_reverse.2 hs)
    | tail _ hbc ih => exact h2 _ ih _ hbc

/-- The result of `epsilon_closure` is a well-formed sorted set. -/
theorem epsilon_closure_sorted (m : Nfa) (L : List Nat) :
    SSorted (epsilon_closure m L) :=
  ecAux_sorted m _ _ _ List.Pairwise.nil

/-- `epsilon_closure` depends only on the input's members. -/
theorem epsilon_closure_congr (m : Nfa) {L₁ L₂ : List Nat}
    (h : ∀ x, x ∈ L₁ ↔ x ∈ L₂) :
    epsilon_closure m L₁ = epsilon_closure m L₂ := by
  refine SSorted.eq_of_mem_iff (epsilon_closure_sorted m L₁)
    (epsilon_closure_sorted m L₂) ?_
  intro x
  rw [mem_epsilon_closure, mem_epsilon_closure]
  constructor
  · rintro ⟨s, hs, hr⟩; exact ⟨s, (h s).1 hs, hr⟩
  · rintro ⟨s, hs, hr⟩; exact ⟨s, (h s).2 hs, hr⟩

/-- The input is contained in its epsilon closure. -/
theorem subset_epsilon_closure (m : Nfa) (L : List Nat) (x : Nat) (h : x ∈ L) :
    x ∈ epsilon_closure m L :=
  (mem_epsilon_closure m L x).2 ⟨x, h, Relation.ReflTransGen.refl⟩

/-- The epsilon closure is closed under epsilon steps. -/
theorem epsilon_closure_closed (m : Nfa) (L : List Nat) {x t : Nat}
    (hx : x ∈ epsilon_closure m L) (ht : epsStep m x t) :
    t ∈ epsilon_closure m L := by
  rcases (mem_epsilon_closure m L x).1 hx with ⟨s, hs, hr⟩
  exact (mem_epsilon_closure m L t).2 ⟨s, hs, hr.tail ht⟩

/-- The epsilon closure of the empty set is empty. -/
theorem epsilon_closure_nil (m : Nfa) : epsilon_closure m [] = [] := by
  refine SSorted.eq_of_mem_iff (epsilon_closure_sorted m []) List.Pairwise.nil ?_
  intro x
  rw [mem_epsilon_closure]
  simp

/-! ## Claim C8 (idempotence of the epsilon closure) -/

/-- **C8.** `epsilon_closure` is idempotent: for every NFA and every set
of valid state handles, applying it twice yields the same set (indeed the
same canonical sorted sequence) as applying it once. -/
theorem claim_C8 (m : Nfa) (S : List Nat) (_hS : ∀ s ∈ S, s < m.states.length) :
    epsilon_closure m (epsilon_closure m S) = epsilon_closure m S := by
  refine SSorted.eq_of_mem_iff (epsilon_closure_sorted m _)
    (epsilon_closure_sorted m S) ?_
  intro x
  rw [mem_epsilon_closure]
  constructor
  · rintro ⟨s, hs, hr⟩
    rcases (mem_epsilon_closure m S s).1 hs with ⟨s₀, hs₀, hr₀⟩
    exact (mem_epsilon_closure m S x).2 ⟨s₀, hs₀, hr₀.trans hr⟩
  · intro hx
    exact ⟨x, hx, Relation.ReflTransGen.refl⟩

/-- Witness for C8 at a concrete NFA and handle set. -/
theorem claim_C8_witness :
    epsilon_closure ⟨[⟨[], [1], false⟩, ⟨[], [], true⟩]⟩
        (epsilon_closure ⟨[⟨[], [1], false⟩, ⟨[], [], true⟩]⟩ [0])
      = epsilon_closure ⟨[⟨[], [1], false⟩, ⟨[], [], true⟩]⟩ [0] :=
  claim_C8 ⟨[⟨[], [1], false⟩, ⟨[], [], true⟩]⟩ [0] (by decide)

/-! ## `reachable_states` characterization -/

theorem mem_allDT (d : Dfa) (x : Nat) :
    x ∈ allDT d ↔ ∃ st ∈ d.states, x ∈ st.branches.map Prod.snd := by
  rw [allDT]
  induction d.states with
  | nil => simp
  | cons st l ih => simp [ih]

theorem dTargets_mem_allDT {d : Dfa} {s t : Nat} (h : t ∈ dTargets d s) :
    t ∈ allDT d := by
  rw [dTargets, dstateAt] at h
  by_cases hs : s < d.states.length
  · rw [List.getD_eq_getElem _ _ hs] at h
    exact (mem_allDT d t).2 ⟨d.states[s], List.getElem_mem hs, h⟩
  · rw [List.getD_eq_default _ _ (by omega)] at h
    simp at h

/-- Membership in the two components of the inner fold of
`reachable_states` (no shape hypotheses needed). -/
theorem rsFold_mem (ts : List Nat) : ∀ (r ps : List Nat),
    (∀ x, x ∈ (ts.foldl rsStep (r, ps)).1 ↔ x ∈ r ∨ x ∈ ts)
    ∧ (∀ x, x ∈ (ts.foldl rsStep (r, ps)).2 ↔ x ∈ ps ∨ (x ∈ ts ∧ x ∉ r)) := by
  induction ts with
  | nil => intro r ps; constructor <;> intro x <;> simp
  | cons t ts ih =>
    intro r ps
    simp only [List.foldl_cons, rsStep]
    by_cases ht : t ∈ r
    · rw [if_pos ht]
      obtain ⟨g1, g2⟩ := ih r ps
      constructor
      · intro x
        rw [g1]
        simp only [List.mem_cons]
        constructor
        · tauto
        · rintro (h | rfl | h)
          · tauto
          · exact Or.inl ht
          · tauto
      · intro x
        rw [g2]
        simp only [List.mem_cons]
        constructor
        · tauto
        · rintro (h | ⟨rfl | h, hr⟩)
          · tauto
          · exact absurd ht hr
          · tauto
    · rw [if_neg ht]
      obtain ⟨g1, g2⟩ := ih (sinsert t r) (ps ++ [t])
      constructor
      · intro x
        rw [g1, mem_sinsert]
        simp only [List.mem_cons]
        tauto
      · intro x
        rw [g2]
        simp only [List.mem_append, List.mem_singleton, List.mem_cons, mem_sinsert,
          not_or]
        by_cases hx : x = t
        · subst hx
          simp [ht]
        · simp only [hx, false_or, or_false]
          tauto

/-- Shape preservation of the inner fold of `reachable_states`. -/
theorem rsFold_wf (ts : List Nat) : ∀ (r ps : List Nat),
    SSorted r → ps.Nodup → (∀ x ∈ ps, x ∈ r) →
    SSorted (ts.foldl rsStep (r, ps)).1
    ∧ (ts.foldl rsStep (r, ps)).2.Nodup
    ∧ (∀ x ∈ (ts.foldl rsStep (r, ps)).2, x ∈ (ts.foldl rsStep (r, ps)).1) := by
  induction ts with
  | nil => intro r ps h1 h2 h3; exact ⟨h1, h2, h3⟩
  | cons t ts ih =>
    intro r ps h1 h2 h3
    simp only [List.foldl_cons, rsStep]
    by_cases ht : t ∈ r
    · rw [if_pos ht]
      exact ih r ps h1 h2 h3
    · rw [if_neg ht]
      refine ih (sinsert t r) (ps ++ [t]) (h1.sinsert t) ?_ ?_
      · rw [List.nodup_append]
        refine ⟨h2, List.nodup_singleton t, ?_⟩
        intro x hx hx'
        rw [List.mem_singleton] at hx'
        subst hx'
        exact ht (h3 x hx)
      · intro x hx
        rcases List.mem_append.1 hx with hx | hx
        · exact (mem_sinsert x t r).2 (Or.inr (h3 x hx))
        · rw [List.mem_singleton] at hx
          subst hx
          exact (mem_sinsert x x r).2 (Or.inl rfl)

/-- Soundness of the `reachable_states` worklist. -/
theorem rsAux_sound (d : Dfa) : ∀ (fuel : Nat) (stack reach : List Nat) (x : Nat),
    x ∈ rsAux d fuel stack reach → x ∈ reach ∨ ∃ s ∈ stack, dfaReach d s x
  | 0, _, _, _, h => Or.inl h
  | _+1, [], _, _, h => Or.inl h
  | fuel+1, state :: unchecked, reach, x, h => by
    rcases hfold : (dTargets d state).foldl rsStep (reach, []) with ⟨r', ps⟩
    rw [rsAux, hfold] at h
    obtain ⟨g1, g2⟩ := rsFold_mem (dTargets d state) reach []
    rw [hfold] at g1 g2
    rcases rsAux_sound d fuel _ _ x h with hx | ⟨s, hs, hr⟩
    · rcases (g1 x).1 hx with hx | hx
      · exact Or.inl hx
      · exact Or.inr ⟨state, List.mem_cons.2 (Or.inl rfl),
          Relation.ReflTransGen.single hx⟩
    · rcases List.mem_append.1 hs with hs | hs
      · have hs' := (g2 s).1 (List.mem_reverse.1 hs)
        simp only [List.not_mem_nil, false_or] at hs'
        exact Or.inr ⟨state, List.mem_cons.2 (Or.inl rfl),
          Relation.ReflTransGen.head hs'.1 hr⟩
      · exact Or.inr ⟨s, List.mem_cons.2 (Or.inr hs), hr⟩

/-- Completeness of the `reachable_states` worklist: with enough fuel,
everything reached stays reached and the result is closed under branch
edges. -/
theorem rsAux_complete (d : Dfa) (U : Finset Nat)
    (hU : ∀ s t, t ∈ dTargets d s → t ∈ U) :
    ∀ (fuel : Nat) (stack reach : List Nat),
      SSorted reach →
      (∀ s ∈ stack, s ∈ reach) →
      (∀ s ∈ reach, s ∈ stack ∨ ∀ t ∈ dTargets d s, t ∈ reach) →
      stack.length + (U.filter (fun u => u ∉ reach)).card ≤ fuel →
      (∀ x ∈ reach, x ∈ rsAux d fuel stack reach)
      ∧ (∀ s ∈ rsAux d fuel stack reach, ∀ t ∈ dTargets d s,
          t ∈ rsAux d fuel stack reach) := by
  intro fuel
  induction fuel with
  | zero =>
    intro stack reach _ _ hinv hfuel
    have : stack = [] := List.length_eq_zero.1 (by omega)
    subst this
    refine ⟨fun x hx => hx, ?_⟩
    intro s hs t ht
    rcases hinv s hs with h | h
    · exact absurd h (List.not_mem_nil s)
    · exact h t ht
  | succ fuel ih =>
    intro stack reach hsorted hstack hinv hfuel
    match stack with
    | [] =>
      refine ⟨fun x hx => hx, ?_⟩
      intro s hs t ht
      rcases hinv s hs with h | h
      · exact absurd h (List.not_mem_nil s)
      · exact h t ht
    | state :: unchecked =>
      rw [List.length_cons] at hfuel
      rcases hfold : (dTargets d state).foldl rsStep (reach, []) with ⟨r', ps⟩
      have hgoal : rsAux d (fuel+1) (state :: unchecked) reach
          = rsAux d fuel (ps.reverse ++ unchecked) r' := by
        rw [rsAux, hfold]
      obtain ⟨g1, g2⟩ := rsFold_mem (dTargets d state) reach []
      obtain ⟨w1, w2, w3⟩ := rsFold_wf (dTargets d state) reach []
        hsorted List.nodup_nil (by simp)
      rw [hfold] at g1 g2 w1 w2 w3
      simp only [List.not_mem_nil, false_or] at g2
      have hsub : ∀ x ∈ reach, x ∈ r' := fun x hx => (g1 x).2 (Or.inl hx)
      have hstack' : ∀ s ∈ ps.reverse ++ unchecked, s ∈ r' := by
        intro s hs
        rcases List.mem_append.1 hs with hs | hs
        · exact w3 s (List.mem_reverse.1 hs)
        · exact hsub s (hstack s (List.mem_cons.2 (Or.inr hs)))
      have hinv' : ∀ s ∈ r', s ∈ ps.reverse ++ unchecked
          ∨ ∀ t ∈ dTargets d s, t ∈ r' := by
        intro s hs
        rcases (g1 s).1 hs with hs' | hs'
        · rcases hinv s hs' with h | h
          · rcases List.mem_cons.1 h with rfl | h
            · exact Or.inr (fun t ht => (g1 t).2 (Or.inr ht))
            · exact Or.inl (List.mem_append.2 (Or.inr h))
          · exact Or.inr (fun t ht => hsub t (h t ht))
        · by_cases hr : s ∈ reach
          · rcases hinv s hr with h | h
            · rcases List.mem_cons.1 h with rfl | h
              · exact Or.inr (fun t ht => (g1 t).2 (Or.inr ht))
              · exact Or.inl (List.mem_append.2 (Or.inr h))
            · exact Or.inr (fun t ht => hsub t (h t ht))
          · refine Or.inl (List.mem_append.2 (Or.inl ?_))
            exact List.mem_reverse.2 ((g2 s).2 ⟨hs', hr⟩)
      have hcard : (U.filter (fun u => u ∉ reach)).card
          = (U.filter (fun u => u ∉ r')).card + ps.length := by
        have hseteq : U.filter (fun u => u ∉ r')
            = U.filter (fun u => u ∉ reach) \ ps.toFinset := by
          ext x
          simp only [Finset.mem_sdiff, Finset.mem_filter, List.mem_toFinset, g1, g2,
            not_or]
          constructor
          · intro ⟨hxU, hx1, hx2⟩
            exact ⟨⟨hxU, hx1⟩, fun h => hx2 h.1⟩
          · intro ⟨⟨hxU, hx1⟩, hx2⟩
            refine ⟨hxU, hx1, ?_⟩
            intro hxts
            exact hx2 ⟨hxts, hx1⟩
        have hsubset : ps.toFinset ⊆ U.filter (fun u => u ∉ reach) := by
          intro x hx
          rw [List.mem_toFinset] at hx
          have hx' := (g2 x).1 hx
          exact Finset.mem_filter.2 ⟨hU state x hx'.1, hx'.2⟩
        have hc := Finset.card_sdiff hsubset
        have hle := Finset.card_le_card hsubset
        have hps : ps.toFinset.card = ps.length := by
          rw [List.toFinset_card_of_nodup w2]
        rw [hseteq, hc, hps]
        omega
      have hfuel' : (ps.reverse ++ unchecked).length
          + (U.filter (fun u => u ∉ r')).card ≤ fuel := by
        rw [List.length_append, List.length_reverse]
        omega
      obtain ⟨h1, h2⟩ := ih (ps.reverse ++ unchecked) r' w1 hstack' hinv' hfuel'
      rw [hgoal]
      exact ⟨fun x hx => h1 x (hsub x hx), h2⟩

/-- Characterization of `reachable_states`: exactly the handles reachable
from `state` along branch edges. -/
theorem mem_reachable_states (d : Dfa) (state x : Nat) :
    x ∈ reachable_states d state ↔ dfaReach d state x := by
  constructor
  · intro h
    rcases rsAux_sound d _ _ _ x h with h | ⟨s, hs, hr⟩
    · rw [List.mem_singleton] at h
      subst h
      exact Relation.ReflTransGen.refl
    · rw [List.mem_singleton] at hs
      subst hs
      exact hr
  · intro h
    have hU : ∀ s t, t ∈ dTargets d s → t ∈ ((state :: allDT d).dedup).toFinset := by
      intro s t ht
      rw [List.mem_toFinset, List.mem_dedup]
      exact List.mem_cons.2 (Or.inr (dTargets_mem_allDT ht))
    obtain ⟨h1, h2⟩ := rsAux_complete d ((state :: allDT d).dedup).toFinset hU
      ((state :: allDT d).dedup.length + 1) [state] [state]
      (List.pairwise_singleton _ _) (by simp) (by simp)
      (by
        have hle : (((state :: allDT d).dedup).toFinset.filter
            (fun u => u ∉ [state])).card ≤ ((state :: allDT d).dedup).toFinset.card :=
          Finset.card_filter_le _ _
        have hcard : ((state :: allDT d).dedup).toFinset.card
            = (state :: allDT d).dedup.length :=
          List.toFinset_card_of_nodup (List.nodup_dedup _)
        simp only [List.length_singleton]
        omega)
    rw [reachable_states]
    induction h with
    | refl => exact h1 state (List.mem_singleton.2 rfl)
    | tail _ hbc ih => exact h2 _ ih _ hbc

/-- The `reachable_states` worklist keeps the reached set sorted. -/
theorem rsAux_sorted (d : Dfa) : ∀ (fuel : Nat) (stack reach : List Nat),
    SSorted reach → SSorted (rsAux d fuel stack reach)
  | 0, _, _, h => h
  | _+1, [], _, h => h
  | fuel+1, state :: unchecked, reach, h => by
    rcases hfold : (dTargets d state).foldl rsStep (reach, []) with ⟨r', ps⟩
    rw [rsAux, hfold]
    obtain ⟨w1, _, _⟩ := rsFold_wf (dTargets d state) reach [] h List.nodup_nil (by simp)
    rw [hfold] at w1
    exact rsAux_sorted d fuel _ _ w1

/-- The result of `reachable_states` is a well-formed sorted set. -/
theorem reachable_states_sorted (d : Dfa) (state : Nat) :
    SSorted (reachable_states d state) :=
  rsAux_sorted d _ _ _ (List.pairwise_singleton _ _)

/-! ## Claim C2 (`Dfa::optimize`) -/

/-- **C2, counterexample.** The claim asserts that `optimize` returns
normally for every DFA.  It does not: after computing the reachable set
it executes `todo!()`, which panics (embedded as `none`), so even on a
trivial one-state DFA no DFA is returned. -/
theorem claim_C2_counterexample : Dfa.optimize ⟨[⟨[], false⟩]⟩ = none := by rfl

/-- **C2 (amended).** For every DFA, `optimize` computes the set of state
handles reachable from handle 0 by a forward traversal of all branch
transitions (`reachable_states`, characterized here as exactly the
forward-reachable handles), and does not act on that set: it then hits
the `todo!()` panic, never returning a result (embedded as `none`), so no
state is dropped, merged, or modified — but no DFA is returned either. -/
theorem claim_C2 (d : Dfa) :
    Dfa.optimize d = none
    ∧ (∀ x, x ∈ reachable_states d 0 ↔ dfaReach d 0 x) :=
  ⟨rfl, fun x => mem_reachable_states d 0 x⟩

/-! ## `transitions` characterization -/

theorem keyTargets_cons (k : Char) (ts : List Nat) (brs : List (Char × List Nat))
    (x : Char) :
    keyTargets ((k, ts) :: brs) x
      = if k = x then ts ++ keyTargets brs x else keyTargets brs x := rfl

theorem mem_keyTargets {brs : List (Char × List Nat)} {x : Char} {t : Nat} :
    t ∈ keyTargets brs x ↔ ∃ p ∈ brs, p.1 = x ∧ t ∈ p.2 := by
  induction brs with
  | nil => simp [keyTargets]
  | cons p brs ih =>
    rcases p with ⟨k, ts⟩
    rw [keyTargets_cons]
    by_cases h : k = x
    · rw [if_pos h, List.mem_append, ih]
      constructor
      · rintro (ht | ⟨q, hq, h1, h2⟩)
        · exact ⟨(k, ts), List.mem_cons.2 (Or.inl rfl), h, ht⟩
        · exact ⟨q, List.mem_cons.2 (Or.inr hq), h1, h2⟩
      · rintro ⟨q, hq, h1, h2⟩
        rcases List.mem_cons.1 hq with rfl | hq
        · exact Or.inl h2
        · exact Or.inr ⟨q, hq, h1, h2⟩
    · rw [if_neg h, ih]
      constructor
      · rintro ⟨q, hq, h1, h2⟩
        exact ⟨q, List.mem_cons.2 (Or.inr hq), h1, h2⟩
      · rintro ⟨q, hq, h1, h2⟩
        rcases List.mem_cons.1 hq with rfl | hq
        · exact absurd h1 h
        · exact ⟨q, hq, h1, h2⟩

theorem mem_stepSet {m : Nfa} {L : List Nat} {x : Char} {t : Nat} :
    t ∈ stepSet m L x ↔ ∃ s ∈ L, t ∈ targetsOfAll (stateAt m s) x := by
  induction L with
  | nil => simp [stepSet]
  | cons s L ih =>
    show t ∈ targetsOfAll (stateAt m s) x ++ stepSet m L x ↔ _
    rw [List.mem_append, ih]
    simp only [List.mem_cons]
    constructor
    · rintro (h | ⟨u, hu, h⟩)
      · exact ⟨s, Or.inl rfl, h⟩
      · exact ⟨u, Or.inr hu, h⟩
    · rintro ⟨u, rfl | hu, h⟩
      · exact Or.inl h
      · exact Or.inr ⟨u, hu, h⟩

theorem mem_allBranchT (m : Nfa) (x : Nat) :
    x ∈ allBranchT m ↔ ∃ st ∈ m.states, ∃ p ∈ st.branches, x ∈ p.2 := by
  rw [allBranchT]
  induction m.states with
  | nil => simp
  | cons st l ih =>
    simp only [List.foldr_cons, List.mem_cons]
    have hbr : ∀ (acc : List Nat),
        x ∈ st.branches.foldr (fun p a => p.2 ++ a) acc
          ↔ (∃ p ∈ st.branches, x ∈ p.2) ∨ x ∈ acc := by
      intro acc
      induction st.branches with
      | nil => simp
      | cons p brs ihb =>
        simp only [List.foldr_cons, List.mem_append, ihb, List.mem_cons]
        constructor
        · rintro (h | ⟨q, hq, h⟩ | h)
          · exact Or.inl ⟨p, Or.inl rfl, h⟩
          · exact Or.inl ⟨q, Or.inr hq, h⟩
          · exact Or.inr h
        · rintro (⟨q, rfl | hq, h⟩ | h)
          · exact Or.inl h
          · exact Or.inr (Or.inl ⟨q, hq, h⟩)
          · exact Or.inr (Or.inr h)
    rw [hbr, ih]
    constructor
    · rintro (h | ⟨st', h1, h2⟩)
      · exact ⟨st, Or.inl rfl, h⟩
      · exact ⟨st', Or.inr h1, h2⟩
    · rintro ⟨st', rfl | h1, h2⟩
      · exact Or.inl h2
      · exact Or.inr ⟨st', h1, h2⟩

theorem stepSet_mem_allBranchT {m : Nfa} {L : List Nat} {x : Char} {t : Nat}
    (h : t ∈ stepSet m L x) : t ∈ allBranchT m := by
  rcases mem_stepSet.1 h with ⟨s, _, ht⟩
  rw [targetsOfAll] at ht
  rcases mem_keyTargets.1 ht with ⟨p, hp, _, htp⟩
  rw [mem_allBranchT]
  by_cases hs : s < m.states.length
  · rw [stateAt, List.getD_eq_getElem _ _ hs] at hp
    exact ⟨m.states[s], List.getElem_mem hs, p, hp, htp⟩
  · rw [stateAt_default (by omega)] at hp
    exact absurd hp (List.not_mem_nil p)

theorem alookup_eq_none_of_lt {β : Type} {l : List (Char × β)} {x : Char}
    (h : ∀ p ∈ l, x < p.1) : alookup l x = none := by
  induction l with
  | nil => rfl
  | cons p l ih =>
    rw [alookup, if_neg, ih]
    · intro q hq
      exact h q (List.mem_cons.2 (Or.inr hq))
    · intro he
      have := h p (List.mem_cons.2 (Or.inl rfl))
      rw [he] at this
      exact lt_irrefl _ this

theorem alookup_mapInsertUnion (c : Char) (v : List Nat) :
    ∀ (l : List (Char × List Nat)), KSorted l → ∀ x,
    alookup (mapInsertUnion l c v) x
      = if x = c then some (sextend ((alookup l c).getD []) v) else alookup l x
  | [], _, x => by
    rw [mapInsertUnion]
    by_cases h : x = c
    · subst h; simp [alookup]
    · simp [alookup, h]
  | (k, w) :: rest, hs, x => by
    rw [KSorted, List.pairwise_cons] at hs
    rw [mapInsertUnion]
    rcases lt_trichotomy c k with h1 | h1 | h1
    · rw [if_pos h1]
      have hck : alookup ((k, w) :: rest) c = none := by
        refine alookup_eq_none_of_lt ?_
        intro p hp
        rcases List.mem_cons.1 hp with rfl | hp
        · exact h1
        · exact h1.trans (hs.1 p hp)
      by_cases h : x = c
      · subst h
        rw [hck]
        simp [alookup]
      · rw [alookup, if_neg h, if_neg h]
    · rw [if_neg (by rw [h1]; exact lt_irrefl k), if_pos h1]
      subst h1
      by_cases h : x = c
      · subst h
        simp [alookup]
      · simp [alookup, h]
    · rw [if_neg (lt_asymm h1), if_neg (ne_of_gt h1)]
      by_cases h : x = k
      · subst h
        simp [alookup, ne_of_lt h1]
      · rw [alookup, if_neg h, alookup_mapInsertUnion c v rest hs.2 x]
        simp [alookup, ne_of_gt h1, h]

/-- An entry of `mapInsertUnion l c v` either has key `c` or comes
from `l`. -/
theorem mem_mapInsertUnion_keys (c : Char) (v : List Nat) :
    ∀ (l : List (Char × List Nat)) (p : Char × List Nat),
      p ∈ mapInsertUnion l c v → p.1 = c ∨ p ∈ l
  | [], p, hp => by
    rw [mapInsertUnion] at hp
    rcases List.mem_singleton.1 hp with rfl
    exact Or.inl rfl
  | (k, w) :: rest, p, hp => by
    rw [mapInsertUnion] at hp
    by_cases h1 : c < k
    · rw [if_pos h1] at hp
      rcases List.mem_cons.1 hp with rfl | hp
      · exact Or.inl rfl
      · exact Or.inr hp
    · rw [if_neg h1] at hp
      by_cases h2 : c = k
      · rw [if_pos h2] at hp
        rcases List.mem_cons.1 hp with rfl | hp
        · exact Or.inl h2.symm
        · exact Or.inr (List.mem_cons.2 (Or.inr hp))
      · rw [if_neg h2] at hp
        rcases List.mem_cons.1 hp with rfl | hp
        · exact Or.inr (List.mem_cons.2 (Or.inl rfl))
        · rcases mem_mapInsertUnion_keys c v rest p hp with h' | h'
          · exact Or.inl h'
          · exact Or.inr (List.mem_cons.2 (Or.inr h'))

theorem KSorted_mapInsertUnion (c : Char) (v : List Nat) :
    ∀ {l : List (Char × List Nat)}, KSorted l → KSorted (mapInsertUnion l c v)
  | [], _ => by
    rw [mapInsertUnion, KSorted]
    exact List.pairwise_singleton _ _
  | (k, w) :: rest, h => by
    rw [KSorted, List.pairwise_cons] at h
    rw [mapInsertUnion]
    by_cases h1 : c < k
    · rw [if_pos h1]
      refine List.Pairwise.cons ?_ (List.Pairwise.cons h.1 h.2)
      intro p hp
      rcases List.mem_cons.1 hp with rfl | hp
      · exact h1
      · exact h1.trans (h.1 p hp)
    · rw [if_neg h1]
      by_cases h2 : c = k
      · rw [if_pos h2]
        exact List.Pairwise.cons h.1 h.2
      · rw [if_neg h2]
        have hkc : k < c := by
          rcases lt_trichotomy c k with h' | h' | h'
          · exact absurd h' h1
          · exact absurd h' h2
          · exact h'
        refine List.Pairwise.cons ?_ (KSorted_mapInsertUnion c v h.2)
        intro p hp
        rcases mem_mapInsertUnion_keys c v rest p hp with h' | h'
        · rw [h']; exact hkc
        · exact h.1 p h'

theorem mapInsertUnion_values (c : Char) (v : List Nat) :
    ∀ {l : List (Char × List Nat)}, (∀ p ∈ l, SSorted p.2) →
      ∀ p ∈ mapInsertUnion l c v, SSorted p.2
  | [], _, p, hp => by
    rw [mapInsertUnion] at hp
    rcases List.mem_singleton.1 hp with rfl
    exact SSorted.sextend v SSorted.nil
  | (k, w) :: rest, h, p, hp => by
    rw [mapInsertUnion] at hp
    split at hp
    · rcases List.mem_cons.1 hp with rfl | hp
      · exact SSorted.sextend v SSorted.nil
      · exact h p hp
    · split at hp
      · rcases List.mem_cons.1 hp with rfl | hp
        · exact SSorted.sextend v (h (k, w) (List.mem_cons.2 (Or.inl rfl)))
        · exact h p (List.mem_cons.2 (Or.inr hp))
      · rcases List.mem_cons.1 hp with rfl | hp
        · exact h (k, w) (List.mem_cons.2 (Or.inl rfl))
        · exact mapInsertUnion_values c v
            (fun q hq => h q (List.mem_cons.2 (Or.inr hq))) p hp

/-- Specification of folding one state's branch entries into the
accumulated per-character map. -/
theorem addBranches_spec :
    ∀ (brs : List (Char × List Nat)) (acc : List (Char × List Nat)),
    KSorted acc → (∀ p ∈ acc, SSorted p.2) →
    KSorted (brs.foldl (fun a p => mapInsertUnion a p.1 p.2) acc)
    ∧ (∀ p ∈ brs.foldl (fun a p => mapInsertUnion a p.1 p.2) acc, SSorted p.2)
    ∧ (∀ x, alookup (brs.foldl (fun a p => mapInsertUnion a p.1 p.2) acc) x = none
          ↔ alookup acc x = none ∧ ∀ p ∈ brs, p.1 ≠ x)
    ∧ (∀ x t, t ∈ (alookup (brs.foldl (fun a p => mapInsertUnion a p.1 p.2) acc) x).getD []
          ↔ t ∈ (alookup acc x).getD [] ∨ t ∈ keyTargets brs x) := by
  intro brs
  induction brs with
  | nil =>
    intro acc h1 h2
    refine ⟨h1, h2, fun x => ?_, fun x t => ?_⟩
    · simp
    · simp [keyTargets]
  | cons q brs ih =>
    rcases q with ⟨k, ts⟩
    intro acc h1 h2
    simp only [List.foldl_cons]
    obtain ⟨g1, g2, g3, g4⟩ := ih (mapInsertUnion acc k ts)
      (KSorted_mapInsertUnion k ts h1) (mapInsertUnion_values k ts h2)
    refine ⟨g1, g2, fun x => ?_, fun x t => ?_⟩
    · rw [g3 x, alookup_mapInsertUnion k ts acc h1 x]
      by_cases h : x = k
      · subst h
        constructor
        · rintro ⟨h', _⟩
          simp at h'
        · rintro ⟨_, hall⟩
          exact absurd rfl (hall (x, ts) (List.mem_cons.2 (Or.inl rfl)))
      · rw [if_neg h]
        constructor
        · rintro ⟨h1', h2'⟩
          refine ⟨h1', ?_⟩
          intro p hp
          rcases List.mem_cons.1 hp with rfl | hp
          · exact fun he => h he.symm
          · exact h2' p hp
        · rintro ⟨h1', h2'⟩
          exact ⟨h1', fun p hp => h2' p (List.mem_cons.2 (Or.inr hp))⟩
    · rw [g4 x t, alookup_mapInsertUnion k ts acc h1 x, keyTargets_cons]
      by_cases h : x = k
      · subst h
        rw [if_pos rfl, if_pos rfl]
        simp only [Option.getD_some, mem_sextend, List.mem_append]
        tauto
      · rw [if_neg h, if_neg (fun he => h he.symm)]

/-- Specification of the accumulation phase of `transitions` over a list
of source states, with a general accumulator. -/
theorem transAcc_aux (m : Nfa) :
    ∀ (L : List Nat) (acc : List (Char × List Nat)),
    KSorted acc → (∀ p ∈ acc, SSorted p.2) →
    KSorted (L.foldl (fun acc s =>
        (stateAt m s).branches.foldl (fun a p => mapInsertUnion a p.1 p.2) acc) acc)
    ∧ (∀ p ∈ L.foldl (fun acc s =>
        (stateAt m s).branches.foldl (fun a p => mapInsertUnion a p.1 p.2) acc) acc,
        SSorted p.2)
    ∧ (∀ x, alookup (L.foldl (fun acc s =>
        (stateAt m s).branches.foldl (fun a p => mapInsertUnion a p.1 p.2) acc) acc) x
          = none
        ↔ alookup acc x = none ∧ ∀ s ∈ L, ∀ p ∈ (stateAt m s).branches, p.1 ≠ x)
    ∧ (∀ x t, t ∈ (alookup (L.foldl (fun acc s =>
        (stateAt m s).branches.foldl (fun a p => mapInsertUnion a p.1 p.2) acc) acc)
          x).getD []
        ↔ t ∈ (alookup acc x).getD [] ∨ t ∈ stepSet m L x) := by
  intro L
  induction L with
  | nil =>
    intro acc h1 h2
    refine ⟨h1, h2, fun x => ?_, fun x t => ?_⟩
    · simp
    · simp [stepSet]
  | cons s L ih =>
    intro acc h1 h2
    simp only [List.foldl_cons]
    obtain ⟨a1, a2, a3, a4⟩ := addBranches_spec (stateAt m s).branches acc h1 h2
    obtain ⟨g1, g2, g3, g4⟩ := ih _ a1 a2
    refine ⟨g1, g2, fun x => ?_, fun x t => ?_⟩
    · rw [g3 x, a3 x]
      constructor
      · rintro ⟨⟨h1', h2'⟩, h3'⟩
        refine ⟨h1', ?_⟩
        intro u hu
        rcases List.mem_cons.1 hu with rfl | hu
        · exact h2'
        · exact h3' u hu
      · rintro ⟨h1', h2'⟩
        exact ⟨⟨h1', h2' s (List.mem_cons.2 (Or.inl rfl))⟩,
          fun u hu => h2' u (List.mem_cons.2 (Or.inr hu))⟩
    · rw [g4 x t, a4 x t]
      show _ ↔ _ ∨ t ∈ targetsOfAll (stateAt m s) x ++ stepSet m L x
      rw [List.mem_append, targetsOfAll]
      tauto

/-- Specification of `transAcc`. -/
theorem transAcc_spec (m : Nfa) (L : List Nat) :
    KSorted (transAcc m L) ∧ (∀ p ∈ transAcc m L, SSorted p.2)
    ∧ (∀ x, alookup (transAcc m L) x = none
        ↔ ∀ s ∈ L, ∀ p ∈ (stateAt m s).branches, p.1 ≠ x)
    ∧ (∀ x t, t ∈ (alookup (transAcc m L) x).getD [] ↔ t ∈ stepSet m L x) := by
  obtain ⟨g1, g2, g3, g4⟩ := transAcc_aux m L [] List.Pairwise.nil (by simp)
  rw [transAcc]
  refine ⟨g1, g2, fun x => ?_, fun x t => ?_⟩
  · rw [g3 x]
    simp [alookup]
  · rw [g4 x t]
    simp [alookup]

/-- Keys of an association list after mapping its values. -/
theorem KSorted_map_value {β γ : Type} (f : β → γ) :
    ∀ {l : List (Char × β)}, KSorted l → KSorted (l.map (fun p => (p.1, f p.2)))
  | [], _ => List.Pairwise.nil
  | (k, v) :: rest, h => by
    rw [KSorted, List.pairwise_cons] at h
    rw [List.map_cons]
    refine List.Pairwise.cons ?_ (KSorted_map_value f h.2)
    intro q hq
    rcases List.mem_map.1 hq with ⟨p, hp, rfl⟩
    exact h.1 p hp

/-- Lookup in the final `transitions` map, reduced to the accumulation. -/
theorem alookup_transitions (m : Nfa) (L : List Nat) (x : Char) :
    alookup (transitions m L) x
      = (alookup (transAcc m L) x).map (fun v => epsilon_closure m v) := by
  rw [transitions]
  exact alookup_map_value (fun v => epsilon_closure m v) (transAcc m L) x

/-- A present `transitions` entry is the epsilon closure of the union of
the branch targets of the source set on that character. -/
theorem transitions_some {m : Nfa} {L : List Nat} {x : Char} {v : List Nat}
    (h : alookup (transitions m L) x = some v) :
    v = epsilon_closure m (stepSet m L x) := by
  rw [alookup_transitions] at h
  rcases Option.map_eq_some'.1 h with ⟨v₀, hv₀, rfl⟩
  refine epsilon_closure_congr m ?_
  intro t
  have := (transAcc_spec m L).2.2.2 x t
  rw [hv₀] at this
  exact this

/-- `transitions` has no entry for `x` exactly when no source state has a
branch entry on `x`. -/
theorem transitions_none {m : Nfa} {L : List Nat} {x : Char} :
    alookup (transitions m L) x = none
      ↔ ∀ s ∈ L, ∀ p ∈ (stateAt m s).branches, p.1 ≠ x := by
  rw [alookup_transitions, Option.map_eq_none']
  exact (transAcc_spec m L).2.2.1 x

/-- The key list of `transitions` is strictly sorted (hence duplicate
free). -/
theorem transitions_sorted (m : Nfa) (L : List Nat) :
    KSorted (transitions m L) := by
  rw [transitions]
  exact KSorted_map_value _ (transAcc_spec m L).1

/-- Every value of `transitions` is an epsilon closure of a step set. -/
theorem transitions_mem_value {m : Nfa} {L : List Nat} {p : Char × List Nat}
    (hp : p ∈ transitions m L) :
    p.2 = epsilon_closure m (stepSet m L p.1) := by
  have hk : KSorted (transitions m L) := transitions_sorted m L
  have hl : alookup (transitions m L) p.1 = some p.2 := by
    clear hk
    have hnd : (transitions m L).Pairwise (fun a b => a.1 ≠ b.1) := by
      refine (transitions_sorted m L).imp ?_
      intro a b hab
      exact ne_of_lt hab
    clear hnd
    -- direct: lookup of a member with sorted keys
    have : ∀ (l : List (Char × List Nat)), KSorted l → p ∈ l →
        alookup l p.1 = some p.2 := by
      intro l
      induction l with
      | nil => intro _ h; exact absurd h (List.not_mem_nil p)
      | cons q l ih =>
        intro hs hmem
        rw [KSorted, List.pairwise_cons] at hs
        rcases List.mem_cons.1 hmem with rfl | hmem
        · rw [alookup, if_pos rfl]
        · rw [alookup]
          have hne : p.1 ≠ q.1 := ne_of_gt (hs.1 p hmem)
          rw [if_neg hne]
          exact ih hs.2 hmem
    exact this _ (transitions_sorted m L) hp
  exact transitions_some hl

/-! ## `binsert`, `lookupSet`, `listModify` lemmas -/

theorem alookup_binsert (c : Char) (id : Nat) :
    ∀ (l : List (Char × Nat)), KSorted l → ∀ x,
    alookup (binsert l c id) x = if x = c then some id else alookup l x
  | [], _, x => by
    rw [binsert]
    by_cases h : x = c
    · subst h; simp [alookup]
    · simp [alookup, h]
  | (k, w) :: rest, hs, x => by
    rw [KSorted, List.pairwise_cons] at hs
    rw [binsert]
    rcases lt_trichotomy c k with h1 | h1 | h1
    · rw [if_pos h1]
      by_cases h : x = c
      · subst h
        simp [alookup]
      · rw [alookup, if_neg h]
    · rw [if_neg (by rw [h1]; exact lt_irrefl k), if_pos h1]
      subst h1
      by_cases h : x = c
      · subst h
        simp [alookup]
      · simp [alookup, h]
    · rw [if_neg (lt_asymm h1), if_neg (ne_of_gt h1)]
      by_cases h : x = k
      · subst h
        simp [alookup, ne_of_lt h1]
      · rw [alookup, if_neg h, alookup_binsert c id rest hs.2 x]
        simp [alookup, h]

theorem mem_binsert_keys (c : Char) (id : Nat) :
    ∀ (l : List (Char × Nat)) (p : Char × Nat),
      p ∈ binsert l c id → p.1 = c ∨ p ∈ l
  | [], p, hp => by
    rw [binsert] at hp
    rcases List.mem_singleton.1 hp with rfl
    exact Or.inl rfl
  | (k, w) :: rest, p, hp => by
    rw [binsert] at hp
    by_cases h1 : c < k
    · rw [if_pos h1] at hp
      rcases List.mem_cons.1 hp with rfl | hp
      · exact Or.inl rfl
      · exact Or.inr hp
    · rw [if_neg h1] at hp
      by_cases h2 : c = k
      · rw [if_pos h2] at hp
        rcases List.mem_cons.1 hp with rfl | hp
        · exact Or.inl rfl
        · exact Or.inr (List.mem_cons.2 (Or.inr hp))
      · rw [if_neg h2] at hp
        rcases List.mem_cons.1 hp with rfl | hp
        · exact Or.inr (List.mem_cons.2 (Or.inl rfl))
        · rcases mem_binsert_keys c id rest p hp with h' | h'
          · exact Or.inl h'
          · exact Or.inr (List.mem_cons.2 (Or.inr h'))

theorem KSorted_binsert (c : Char) (id : Nat) :
    ∀ {l : List (Char × Nat)}, KSorted l → KSorted (binsert l c id)
  | [], _ => by
    rw [binsert, KSorted]
    exact List.pairwise_singleton _ _
  | (k, w) :: rest, h => by
    rw [KSorted, List.pairwise_cons] at h
    rw [binsert]
    by_cases h1 : c < k
    · rw [if_pos h1]
      refine List.Pairwise.cons ?_ (List.Pairwise.cons h.1 h.2)
      intro p hp
      rcases List.mem_cons.1 hp with rfl | hp
      · exact h1
      · exact h1.trans (h.1 p hp)
    · rw [if_neg h1]
      by_cases h2 : c = k
      · rw [if_pos h2]
        subst h2
        refine List.Pairwise.cons ?_ h.2
        intro p hp
        exact h.1 p hp
      · rw [if_neg h2]
        have hkc : k < c := by
          rcases lt_trichotomy c k with h' | h' | h'
          · exact absurd h' h1
          · exact absurd h' h2
          · exact h'
        refine List.Pairwise.cons ?_ (KSorted_binsert c id h.2)
        intro p hp
        rcases mem_binsert_keys c id rest p hp with h' | h'
        · rw [h']; exact hkc
        · exact h.1 p h'

theorem lookupSet_mem : ∀ {map : List (List Nat × Nat)} {S : List Nat} {j : Nat},
    lookupSet map S = some j → (S, j) ∈ map
  | [], _, _, h => by cases h
  | (k, v) :: rest, S, j, h => by
    rw [lookupSet] at h
    by_cases hS : S = k
    · rw [if_pos hS] at h
      cases h
      subst hS
      exact List.mem_cons.2 (Or.inl rfl)
    · rw [if_neg hS] at h
      exact List.mem_cons.2 (Or.inr (lookupSet_mem h))

theorem lookupSet_none : ∀ {map : List (List Nat × Nat)} {S : List Nat},
    lookupSet map S = none ↔ S ∉ map.map Prod.fst
  | [], S => by simp [lookupSet]
  | (k, v) :: rest, S => by
    rw [lookupSet]
    by_cases hS : S = k
    · subst hS
      simp
    · rw [if_neg hS, lookupSet_none]
      simp [hS]

theorem lookupSet_isSome_of_mem {map : List (List Nat × Nat)} {S : List Nat}
    (h : S ∈ map.map Prod.fst) : ∃ j, lookupSet map S = some j := by
  rcases heq : lookupSet map S with _ | j
  · exact absurd h (lookupSet_none.1 heq)
  · exact ⟨j, rfl⟩

theorem lookupSet_append_some {map tail : List (List Nat × Nat)} {S : List Nat}
    {j : Nat} (h : lookupSet map S = some j) :
    lookupSet (map ++ tail) S = some j := by
  induction map with
  | nil => cases h
  | cons p rest ih =>
    rcases p with ⟨k, v⟩
    rw [List.cons_append, lookupSet]
    rw [lookupSet] at h
    by_cases hS : S = k
    · rw [if_pos hS] at h ⊢
      exact h
    · rw [if_neg hS] at h ⊢
      exact ih h

theorem lookupSet_singleton_append {map : List (List Nat × Nat)} {S T : List Nat}
    {j : Nat} (h : lookupSet map T = none) :
    lookupSet (map ++ [(T, j)]) S = if S = T then some j else lookupSet map S := by
  induction map with
  | nil =>
    rw [List.nil_append]
    simp only [lookupSet]
  | cons p rest ih =>
    rcases p with ⟨k, v⟩
    rw [lookupSet] at h
    by_cases hT : T = k
    · rw [if_pos hT] at h
      cases h
    · rw [if_neg hT] at h
      by_cases hS : S = k
      · subst hS
        rw [List.cons_append, lookupSet, if_pos rfl,
          if_neg (fun he => hT he.symm), lookupSet, if_pos rfl]
      · rw [List.cons_append, lookupSet, if_neg hS, ih h]
        by_cases hST : S = T
        · rw [if_pos hST, if_pos hST]
        · rw [if_neg hST, if_neg hST, lookupSet, if_neg hS]

theorem listModify_length {α : Type} (f : α → α) :
    ∀ (l : List α) (i : Nat), (listModify l i f).length = l.length
  | [], _ => rfl
  | _ :: rest, 0 => rfl
  | a :: rest, i+1 => by
    rw [listModify, List.length_cons, List.length_cons, listModify_length f rest i]

theorem listModify_getD {α : Type} (f : α → α) (d : α) :
    ∀ (l : List α) (i j : Nat),
      (listModify l i f).getD j d
        = if j = i ∧ j < l.length then f (l.getD j d) else l.getD j d
  | [], i, j => by
    rw [listModify]
    simp
  | a :: rest, 0, 0 => by
    rw [listModify]
    simp
  | a :: rest, 0, j+1 => by
    rw [listModify]
    simp
  | a :: rest, i+1, 0 => by
    rw [listModify]
    simp
  | a :: rest, i+1, j+1 => by
    rw [listModify]
    have := listModify_getD f d rest i j
    simp only [List.getD_cons_succ, List.length_cons]
    rw [this]
    by_cases h : j = i ∧ j < rest.length
    · rw [if_pos h, if_pos (by omega)]
    · rw [if_neg h, if_neg (by omega)]

theorem mem_listModify {α : Type} (f : α → α) :
    ∀ (l : List α) (i : Nat) (a : α),
      a ∈ listModify l i f → a ∈ l ∨ ∃ b ∈ l, a = f b
  | [], _, _, h => absurd h (List.not_mem_nil _)
  | b :: rest, 0, a, h => by
    rcases List.mem_cons.1 h with rfl | h
    · exact Or.inr ⟨b, List.mem_cons.2 (Or.inl rfl), rfl⟩
    · exact Or.inl (List.mem_cons.2 (Or.inr h))
  | b :: rest, i+1, a, h => by
    rcases List.mem_cons.1 h with rfl | h
    · exact Or.inl (List.mem_cons.2 (Or.inl rfl))
    · rcases mem_listModify f rest i a h with h' | ⟨o, ho, rfl⟩
      · exact Or.inl (List.mem_cons.2 (Or.inr h'))
      · exact Or.inr ⟨o, List.mem_cons.2 (Or.inr ho), rfl⟩

/-! ## Universe bounds for canonical sets -/

theorem mem_uNfa (m : Nfa) (x : Nat) :
    x ∈ uNfa m ↔ x = 0 ∨ x ∈ allEpsT m ∨ x ∈ allBranchT m := by
  rw [uNfa, List.mem_dedup]
  simp [List.mem_cons, List.mem_append]

/-- Epsilon reachability ends at its start or at an epsilon target. -/
theorem epsReach_cases {m : Nfa} {s t : Nat} (h : epsReach m s t) :
    t = s ∨ t ∈ allEpsT m := by
  induction h with
  | refl => exact Or.inl rfl
  | tail _ hbc _ => exact Or.inr (epsStep_mem_allEpsT hbc)

/-- Members of a closure of a step set live in the universe. -/
theorem closure_stepSet_bound {m : Nfa} {L : List Nat} {c : Char} {x : Nat}
    (h : x ∈ epsilon_closure m (stepSet m L c)) : x ∈ uNfa m := by
  rcases (mem_epsilon_closure m _ x).1 h with ⟨s, hs, hr⟩
  rw [mem_uNfa]
  rcases epsReach_cases hr with rfl | h'
  · exact Or.inr (Or.inr (stepSet_mem_allBranchT hs))
  · exact Or.inr (Or.inl h')

/-- Members of the initial closure live in the universe. -/
theorem closure_initial_bound {m : Nfa} {x : Nat}
    (h : x ∈ epsilon_closure m [0]) : x ∈ uNfa m := by
  rcases (mem_epsilon_closure m _ x).1 h with ⟨s, hs, hr⟩
  rw [List.mem_singleton] at hs
  subst hs
  rw [mem_uNfa]
  rcases epsReach_cases hr with rfl | h'
  · exact Or.inl rfl
  · exact Or.inr (Or.inl h')

/-- The epsilon closure is idempotent (unconditional helper). -/
theorem closure_idem (m : Nfa) (L : List Nat) :
    epsilon_closure m (epsilon_closure m L) = epsilon_closure m L := by
  refine SSorted.eq_of_mem_iff (epsilon_closure_sorted m _)
    (epsilon_closure_sorted m L) ?_
  intro x
  rw [mem_epsilon_closure]
  constructor
  · rintro ⟨s, hs, hr⟩
    rcases (mem_epsilon_closure m L s).1 hs with ⟨s₀, hs₀, hr₀⟩
    exact (mem_epsilon_closure m L x).2 ⟨s₀, hs₀, hr₀.trans hr⟩
  · intro hx
    exact ⟨x, hx, Relation.ReflTransGen.refl⟩

/-- A duplicate-free list of canonical (sorted, universe-bounded) sets
has at most `2 ^ |universe|` elements. -/
theorem canonical_count (m : Nfa) (keys : List (List Nat))
    (hnd : keys.Nodup)
    (hsorted : ∀ S ∈ keys, SSorted S)
    (hbound : ∀ S ∈ keys, ∀ x ∈ S, x ∈ uNfa m) :
    keys.length ≤ 2 ^ (uNfa m).length := by
  have hinj : ∀ S₁ ∈ keys, ∀ S₂ ∈ keys, S₁.toFinset = S₂.toFinset → S₁ = S₂ := by
    intro S₁ h₁ S₂ h₂ he
    refine SSorted.eq_of_mem_iff (hsorted S₁ h₁) (hsorted S₂ h₂) ?_
    intro x
    rw [← List.mem_toFinset, he, List.mem_toFinset]
  have hnd' : (keys.map List.toFinset).Nodup := by
    rw [List.nodup_map_iff_inj_on hnd]
    exact fun S₁ h₁ S₂ h₂ he => hinj S₁ h₁ S₂ h₂ he
  have hsub : ∀ F ∈ keys.map List.toFinset, F ∈ (uNfa m).toFinset.powerset := by
    intro F hF
    rcases List.mem_map.1 hF with ⟨S, hS, rfl⟩
    rw [Finset.mem_powerset]
    intro x hx
    rw [List.mem_toFinset] at hx ⊢
    exact hbound S hS x hx
  have hlen : keys.length = (keys.map List.toFinset).length :=
    (List.length_map _ _).symm
  rw [hlen]
  have hcard : (keys.map List.toFinset).length
      = (keys.map List.toFinset).toFinset.card :=
    (List.toFinset_card_of_nodup hnd').symm
  rw [hcard]
  have hss : (keys.map List.toFinset).toFinset ⊆ (uNfa m).toFinset.powerset := by
    intro F hF
    exact hsub F (List.mem_toFinset.1 hF)
  calc (keys.map List.toFinset).toFinset.card
      ≤ ((uNfa m).toFinset.powerset).card := Finset.card_le_card hss
    _ = 2 ^ (uNfa m).toFinset.card := Finset.card_powerset _
    _ ≤ 2 ^ (uNfa m).length :=
        Nat.pow_le_pow_right (by omega) (List.toFinset_card_le _)

/-! ## The `for (c, s) in transisions` loop of `Dfa::from_nfa` -/

/-- Full specification of `processTrans`: how one pass over the
transition entries of a popped set extends the states, the
canonicalization map and the queue, and what branch map it produces. -/
theorem processTrans_spec (m : Nfa) :
    ∀ (ts : List (Char × List Nat)) (states : List DfaState)
      (map : List (List Nat × Nat)) (queue : List (List Nat))
      (br : List (Char × Nat)) (Rs : List DfaState)
      (Rm : List (List Nat × Nat)) (Rq : List (List Nat)) (Rb : List (Char × Nat)),
      processTrans m ts states map queue br = (Rs, Rm, Rq, Rb) →
      KSorted ts → KSorted br →
      map.map Prod.snd = List.range states.length →
      (map.map Prod.fst).Nodup →
      queue.Nodup →
      (∀ S ∈ queue, S ∈ map.map Prod.fst) →
      (∀ i, i < states.length →
          Rs.getD i ⟨[], false⟩ = states.getD i ⟨[], false⟩)
      ∧ states.length ≤ Rs.length
      ∧ Rm.map Prod.snd = List.range Rs.length
      ∧ (Rm.map Prod.fst).Nodup
      ∧ (∀ S j, lookupSet map S = some j → lookupSet Rm S = some j)
      ∧ (∃ Δ, Rm = map ++ Δ)
      ∧ (∀ p ∈ Rm, p ∈ map ∨
          (states.length ≤ p.2 ∧ (∃ q ∈ ts, q.2 = p.1) ∧ p.1 ∉ map.map Prod.fst
            ∧ (Rs.getD p.2 ⟨[], false⟩).branches = []
            ∧ (Rs.getD p.2 ⟨[], false⟩).accepts = acceptsAny m p.1
            ∧ p.1 ∈ Rq))
      ∧ (∀ S ∈ Rq, S ∈ queue ∨ (S ∈ Rm.map Prod.fst ∧ S ∉ map.map Prod.fst))
      ∧ (∀ S ∈ queue, S ∈ Rq)
      ∧ Rq.Nodup
      ∧ (∀ S ∈ Rq, S ∈ Rm.map Prod.fst)
      ∧ Rq.length + map.length = queue.length + Rm.length
      ∧ (∀ c, alookup ts c = none → alookup Rb c = alookup br c)
      ∧ (∀ c T, alookup ts c = some T →
          ∃ j, lookupSet Rm T = some j ∧ alookup Rb c = some j)
      ∧ KSorted Rb
      ∧ (∀ j, states.length ≤ j → j < Rs.length → ∃ c, alookup Rb c = some j)
      ∧ (∀ st ∈ Rs, st ∈ states ∨ st.branches = []) := by
  intro ts
  induction ts with
  | nil =>
    intro states map queue br Rs Rm Rq Rb heq _ hbrS hids hknd hqnd hqk
    rw [processTrans] at heq
    cases heq
    refine ⟨fun i _ => rfl, le_refl _, hids, hknd, fun S j h => h,
      ⟨[], (List.append_nil map).symm⟩, fun p hp => Or.inl hp,
      fun S hS => Or.inl hS, fun S hS => hS, hqnd, hqk, rfl,
      fun c _ => rfl, ?_, hbrS, ?_, fun st hst => Or.inl hst⟩
    · intro c T h
      cases h
    · intro j h1 h2
      omega
  | cons q ts ih =>
    rcases q with ⟨c, T⟩
    intro states map queue br Rs Rm Rq Rb heq htsS hbrS hids hknd hqnd hqk
    rw [KSorted, List.pairwise_cons] at htsS
    have htsC : alookup ts c = none := by
      refine alookup_eq_none_of_lt ?_
      intro p hp
      exact htsS.1 p hp
    rw [processTrans] at heq
    rcases hlook : lookupSet map T with _ | id
    · -- new DFA state allocated
      rw [hlook] at heq
      have hTnew : T ∉ map.map Prod.fst := lookupSet_none.1 hlook
      have hids' : (map ++ [(T, states.length)]).map Prod.snd
          = List.range (states ++ [DfaState.mk [] (acceptsAny m T)]).length := by
        rw [List.map_append, hids, List.length_append, List.length_singleton,
          List.range_succ]
        rfl
      have hknd' : ((map ++ [(T, states.length)]).map Prod.fst).Nodup := by
        rw [List.map_append, List.nodup_append]
        refine ⟨hknd, List.nodup_singleton _, ?_⟩
        intro S hS hS'
        rcases List.mem_singleton.1 hS' with rfl
        exact hTnew hS
      have hqnd' : (queue ++ [T]).Nodup := by
        rw [List.nodup_append]
        refine ⟨hqnd, List.nodup_singleton _, ?_⟩
        intro S hS hS'
        rcases List.mem_singleton.1 hS' with rfl
        exact hTnew (hqk S hS)
      have hqk' : ∀ S ∈ queue ++ [T],
          S ∈ (map ++ [(T, states.length)]).map Prod.fst := by
        intro S hS
        rw [List.map_append, List.mem_append]
        rcases List.mem_append.1 hS with hS | hS
        · exact Or.inl (hqk S hS)
        · rcases List.mem_singleton.1 hS with rfl
          exact Or.inr (List.mem_singleton.2 rfl)
      obtain ⟨ih1, ih2, ih3, ih4, ih5, ih6, ih7, ih8, ih9, ih10, ih11, ih12,
        ih13, ih14, ih15, ih16, ih17⟩ :=
        ih (states ++ [DfaState.mk [] (acceptsAny m T)]) (map ++ [(T, states.length)])
          (queue ++ [T]) (binsert br c states.length) Rs Rm Rq Rb heq htsS.2
          (KSorted_binsert c states.length hbrS) hids' hknd' hqnd' hqk'
      have hlen' : (states ++ [DfaState.mk [] (acceptsAny m T)]).length = states.length + 1 := by
        rw [List.length_append, List.length_singleton]
      have hold : ∀ i, i < states.length →
          Rs.getD i ⟨[], false⟩ = states.getD i ⟨[], false⟩ := by
        intro i hi
        rw [ih1 i (by omega), List.getD_append _ _ _ _ hi]
      have hnewst : Rs.getD states.length ⟨[], false⟩
          = ⟨[], acceptsAny m T⟩ := by
        rw [ih1 states.length (by omega), List.getD_append_right _ _ _ _ (le_refl _)]
        simp
      have hTlook : lookupSet (map ++ [(T, states.length)]) T
          = some states.length := by
        rw [lookupSet_singleton_append hlook, if_pos rfl]
      have hTfinal : lookupSet Rm T = some states.length := ih5 T _ hTlook
      have hbc : alookup Rb c = some states.length := by
        rw [ih13 c htsC, alookup_binsert c states.length br hbrS, if_pos rfl]
      refine ⟨hold, by omega, ih3, ih4, ?_, ?_, ?_, ?_, ?_, ih10, ih11, ?_,
        ?_, ?_, ih15, ?_, ?_⟩
      · intro S j h
        exact ih5 S j (lookupSet_append_some h)
      · rcases ih6 with ⟨Δ, hΔ⟩
        exact ⟨(T, states.length) :: Δ, by rw [hΔ, List.append_assoc]; rfl⟩
      · intro p hp
        rcases ih7 p hp with hp' | ⟨hge, ⟨q', hq', hq2⟩, hnk, hbr0, hacc, hq⟩
        · rcases List.mem_append.1 hp' with hp' | hp'
          · exact Or.inl hp'
          · rcases List.mem_singleton.1 hp' with rfl
            refine Or.inr ⟨le_refl _, ⟨(c, T), List.mem_cons.2 (Or.inl rfl), rfl⟩,
              hTnew, ?_, ?_, ?_⟩
            · rw [hnewst]
            · rw [hnewst]
            · exact ih9 T (List.mem_append.2 (Or.inr (List.mem_singleton.2 rfl)))
        · refine Or.inr ⟨by omega, ⟨q', List.mem_cons.2 (Or.inr hq'), hq2⟩, ?_,
            hbr0, hacc, hq⟩
          intro hk
          exact hnk (by rw [List.map_append, List.mem_append]; exact Or.inl hk)
      · intro S hS
        rcases ih8 S hS with hS' | ⟨h1, h2⟩
        · rcases List.mem_append.1 hS' with hS' | hS'
          · exact Or.inl hS'
          · rcases List.mem_singleton.1 hS' with rfl
            refine Or.inr ⟨?_, hTnew⟩
            rcases ih6 with ⟨Δ, hΔ⟩
            rw [hΔ, List.map_append, List.mem_append, List.map_append]
            exact Or.inl (by rw [List.mem_append]
                             exact Or.inr (List.mem_singleton.2 rfl))
        · refine Or.inr ⟨h1, ?_⟩
          intro hk
          exact h2 (by rw [List.map_append, List.mem_append]; exact Or.inl hk)
      · intro S hS
        exact ih9 S (List.mem_append.2 (Or.inl hS))
      · rw [List.length_append, List.length_singleton] at ih12
        rw [List.length_append, List.length_singleton] at ih12
        omega
      · intro x hx
        rw [alookup] at hx
        by_cases hxc : x = c
        · rw [if_pos hxc] at hx
          cases hx
        · rw [if_neg hxc] at hx
          rw [ih13 x hx, alookup_binsert c states.length br hbrS, if_neg hxc]
      · intro x T' hx
        rw [alookup] at hx
        by_cases hxc : x = c
        · rw [if_pos hxc] at hx
          cases hx
          subst hxc
          exact ⟨states.length, hTfinal, hbc⟩
        · rw [if_neg hxc] at hx
          exact ih14 x T' hx
      · intro j hj1 hj2
        by_cases hj : j = states.length
        · subst hj
          exact ⟨c, hbc⟩
        · exact ih16 j (by omega) hj2
      · intro st hst
        rcases ih17 st hst with h | h
        · rcases List.mem_append.1 h with h | h
          · exact Or.inl h
          · rcases List.mem_singleton.1 h with rfl
            exact Or.inr rfl
        · exact Or.inr h
    · -- existing DFA state
      rw [hlook] at heq
      obtain ⟨ih1, ih2, ih3, ih4, ih5, ih6, ih7, ih8, ih9, ih10, ih11, ih12,
        ih13, ih14, ih15, ih16, ih17⟩ :=
        ih states map queue (binsert br c id) Rs Rm Rq Rb heq htsS.2
          (KSorted_binsert c id hbrS) hids hknd hqnd hqk
      have hbc : alookup Rb c = some id := by
        rw [ih13 c htsC, alookup_binsert c id br hbrS, if_pos rfl]
      refine ⟨ih1, ih2, ih3, ih4, ih5, ih6, ?_, ih8, ih9, ih10, ih11, ih12,
        ?_, ?_, ih15, ih16, ih17⟩
      · intro p hp
        rcases ih7 p hp with hp' | ⟨hge, ⟨q', hq', hq2⟩, hnk, hbr0, hacc, hq⟩
        · exact Or.inl hp'
        · exact Or.inr ⟨hge, ⟨q', List.mem_cons.2 (Or.inr hq'), hq2⟩, hnk,
            hbr0, hacc, hq⟩
      · intro x hx
        rw [alookup] at hx
        by_cases hxc : x = c
        · rw [if_pos hxc] at hx
          cases hx
        · rw [if_neg hxc] at hx
          rw [ih13 x hx, alookup_binsert c id br hbrS, if_neg hxc]
      · intro x T' hx
        rw [alookup] at hx
        by_cases hxc : x = c
        · rw [if_pos hxc] at hx
          cases hx
          subst hxc
          exact ⟨id, ih5 T id hlook, hbc⟩
        · rw [if_neg hxc] at hx
          exact ih14 x T' hx

/-- With duplicate-free keys, every entry is found by `lookupSet`. -/
theorem mem_lookupSet_of_nodup :
    ∀ {map : List (List Nat × Nat)}, (map.map Prod.fst).Nodup →
      ∀ {p : List Nat × Nat}, p ∈ map → lookupSet map p.1 = some p.2
  | [], _, p, hp => absurd hp (List.not_mem_nil p)
  | (k, v) :: rest, hnd, p, hp => by
    rw [List.map_cons, List.nodup_cons] at hnd
    rcases List.mem_cons.1 hp with rfl | hp
    · rw [lookupSet, if_pos rfl]
    · rw [lookupSet]
      have hne : p.1 ≠ k := by
        intro he
        have h1 : p.1 ∈ rest.map Prod.fst := List.mem_map_of_mem Prod.fst hp
        rw [he] at h1
        exact hnd.1 h1
      rw [if_neg hne]
      exact mem_lookupSet_of_nodup hnd.2 hp

/-- With duplicate-free assigned handles, entries are determined by their
handle. -/
theorem map_snd_nodup_unique {map : List (List Nat × Nat)}
    (hnd : (map.map Prod.snd).Nodup) {p q : List Nat × Nat}
    (hp : p ∈ map) (hq : q ∈ map) (he : p.2 = q.2) : p = q := by
  induction map with
  | nil => exact absurd hp (List.not_mem_nil p)
  | cons r rest ih =>
    rw [List.map_cons, List.nodup_cons] at hnd
    rcases List.mem_cons.1 hp with hpr | hp
    · rcases List.mem_cons.1 hq with hqr | hq
      · rw [hpr, hqr]
      · exfalso
        have h1 : q.2 ∈ rest.map Prod.snd := List.mem_map_of_mem Prod.snd hq
        rw [← he, hpr] at h1
        exact hnd.1 h1
    · rcases List.mem_cons.1 hq with hqr | hq
      · exfalso
        have h1 : p.2 ∈ rest.map Prod.snd := List.mem_map_of_mem Prod.snd hp
        rw [he, hqr] at h1
        exact hnd.1 h1
      · exact ih hnd.2 hp hq

/-- Main invariance theorem for the `Dfa::from_nfa` worklist loop: with
the invariant and sufficient fuel the loop drains the queue, the
invariant holds of the result with an empty queue, earlier map entries
keep their handles, and states of already-processed sets are unchanged. -/
theorem fromNfaLoop_spec (m : Nfa) :
    ∀ (fuel : Nat) (states : List DfaState) (map : List (List Nat × Nat))
      (queue : List (List Nat)),
      FromNfaInv m states map queue →
      queue.length + 2 ^ (uNfa m).length ≤ fuel + map.length →
      FromNfaInv m (fromNfaLoop m fuel states map queue).1
        (fromNfaLoop m fuel states map queue).2 []
      ∧ (∀ S j, lookupSet map S = some j →
          lookupSet (fromNfaLoop m fuel states map queue).2 S = some j)
      ∧ (∀ p ∈ map, p.1 ∉ queue →
          (fromNfaLoop m fuel states map queue).1.getD p.2 ⟨[], false⟩
            = states.getD p.2 ⟨[], false⟩) := by
  intro fuel
  induction fuel with
  | zero =>
    intro states map queue inv hfuel
    have hbound : map.length ≤ 2 ^ (uNfa m).length := by
      have hcc := canonical_count m (map.map Prod.fst) inv.keysNodup ?_ ?_
      · rwa [List.length_map] at hcc
      · intro S hS
        rcases List.mem_map.1 hS with ⟨p, hp, rfl⟩
        have h1 := inv.keysClosed p hp
        rw [← h1]
        exact epsilon_closure_sorted m p.1
      · intro S hS
        rcases List.mem_map.1 hS with ⟨p, hp, rfl⟩
        exact inv.keysBound p hp
    have hq : queue = [] := List.length_eq_zero.1 (by omega)
    subst hq
    exact ⟨inv, fun S j h => h, fun p _ _ => rfl⟩
  | succ fuel ih =>
    intro states map queue inv hfuel
    match queue with
    | [] =>
      exact ⟨inv, fun S j h => h, fun p _ _ => rfl⟩
    | S :: queue' =>
      have hqnd' : queue'.Nodup := (List.nodup_cons.1 inv.queueNodup).2
      have hSq' : S ∉ queue' := (List.nodup_cons.1 inv.queueNodup).1
      have hSkey : S ∈ map.map Prod.fst :=
        inv.queueKeys S (List.mem_cons.2 (Or.inl rfl))
      obtain ⟨id, hid⟩ := lookupSet_isSome_of_mem hSkey
      have hidmem : (S, id) ∈ map := lookupSet_mem hid
      have hidlt : id < states.length := by
        have h1 : id ∈ map.map Prod.snd := List.mem_map_of_mem Prod.snd hidmem
        rw [inv.ids] at h1
        exact List.mem_range.1 h1
      rcases heq : processTrans m (transitions m S) states map queue' [] with
        ⟨Rs, Rm, Rq, Rb⟩
      obtain ⟨P1, P2, P3, P4, P5, P6, P7, P8, P9, P10, P11, P12, P13, P14, P15,
        P16, P17⟩ := processTrans_spec m (transitions m S) states map queue' []
          Rs Rm Rq Rb heq (transitions_sorted m S) List.Pairwise.nil inv.ids
          inv.keysNodup hqnd'
          (fun T hT => inv.queueKeys T (List.mem_cons.2 (Or.inr hT)))
      have hred : fromNfaLoop m (fuel+1) states map (S :: queue')
          = fromNfaLoop m fuel
              (listModify Rs id (fun st => { st with branches := Rb })) Rm Rq := by
        rw [fromNfaLoop, hid]
        simp only [Option.getD_some, heq]
      set states'' := listModify Rs id (fun st => { st with branches := Rb })
        with hstates''
      have hmodlen : states''.length = Rs.length := listModify_length _ Rs id
      have hilt : id < Rs.length := by omega
      have hgetacc : ∀ j, (states''.getD j ⟨[], false⟩).accepts
          = (Rs.getD j ⟨[], false⟩).accepts := by
        intro j
        rw [hstates'', listModify_getD]
        by_cases h : j = id ∧ j < Rs.length
        · rw [if_pos h]
        · rw [if_neg h]
      have hgetne : ∀ j, j ≠ id →
          states''.getD j ⟨[], false⟩ = Rs.getD j ⟨[], false⟩ := by
        intro j hj
        rw [hstates'', listModify_getD, if_neg (fun h => hj h.1)]
      have hgetid : (states''.getD id ⟨[], false⟩).branches = Rb := by
        rw [hstates'', listModify_getD, if_pos ⟨rfl, hilt⟩]
      have hmemRm : ∀ p ∈ map, p ∈ Rm := by
        rcases P6 with ⟨Δ, hΔ⟩
        intro p hp
        rw [hΔ]
        exact List.mem_append.2 (Or.inl hp)
      have hmapSndNd : (map.map Prod.snd).Nodup := by
        rw [inv.ids]; exact List.nodup_range _
      have hotherid : ∀ p ∈ map, p.1 ≠ S → p.2 ≠ id := by
        intro p hp hne he
        have h1 := map_snd_nodup_unique hmapSndNd hp hidmem he
        rw [h1] at hne
        exact hne rfl
      have hmemlt : ∀ p ∈ map, p.2 < states.length := by
        intro p hp
        have h1 : p.2 ∈ map.map Prod.snd := List.mem_map_of_mem Prod.snd hp
        rw [inv.ids] at h1
        exact List.mem_range.1 h1
      have inv'' : FromNfaInv m states'' Rm Rq := by
        refine ⟨by rw [hmodlen]; exact P3, P4, P10, P11, ?_, ?_, ?_, ?_, ?_,
          ?_, ?_, ?_⟩
        · -- acceptsOk
          intro p hp
          rw [hgetacc p.2]
          rcases P7 p hp with hp' | ⟨_, _, _, _, hacc, _⟩
          · rw [P1 p.2 (hmemlt p hp')]
            exact inv.acceptsOk p hp'
          · exact hacc
        · -- correct
          intro p hp hpRq
          rcases P7 p hp with hp' | ⟨_, _, _, _, _, hqmem⟩
          · by_cases hpS : p.1 = S
            · have hpid : p.2 = id := by
                have h1 := mem_lookupSet_of_nodup inv.keysNodup hp'
                rw [hpS, hid] at h1
                injection h1 with h1
                exact h1.symm
              have hbr : (states''.getD p.2 ⟨[], false⟩).branches = Rb := by
                rw [hpid, hgetid]
              constructor
              · intro c hc
                rw [hbr]
                rw [hpS] at hc
                rw [P13 c hc]
                rfl
              · intro c T hcT
                rw [hpS] at hcT
                obtain ⟨j, hj1, hj2⟩ := P14 c T hcT
                exact ⟨j, hj1, by rw [hbr]; exact hj2⟩
            · have hpqold : p.1 ∉ S :: queue' := by
                intro h
                rcases List.mem_cons.1 h with h' | h'
                · exact hpS h'
                · exact hpRq (P9 p.1 h')
              obtain ⟨C1, C2⟩ := inv.correct p hp' hpqold
              have hst : states''.getD p.2 ⟨[], false⟩
                  = states.getD p.2 ⟨[], false⟩ := by
                rw [hgetne p.2 (hotherid p hp' hpS), P1 p.2 (hmemlt p hp')]
              constructor
              · intro c hc
                rw [hst]
                exact C1 c hc
              · intro c T hcT
                obtain ⟨j, hj1, hj2⟩ := C2 c T hcT
                exact ⟨j, P5 T j hj1, by rw [hst]; exact hj2⟩
          · exact absurd hqmem hpRq
        · -- pending
          intro p hp hpq
          rcases P7 p hp with hp' | ⟨hge, _, _, hbr0, _, _⟩
          · have hpq' : p.1 ∈ queue' := by
              rcases P8 p.1 hpq with h' | ⟨_, h2⟩
              · exact h'
              · exact absurd (List.mem_map_of_mem Prod.fst hp') h2
            have hpS : p.1 ≠ S := by
              intro he
              rw [he] at hpq'
              exact hSq' hpq'
            rw [hgetne p.2 (hotherid p hp' hpS), P1 p.2 (hmemlt p hp')]
            exact inv.pending p hp' (List.mem_cons.2 (Or.inr hpq'))
          · rw [hgetne p.2 (by omega)]
            exact hbr0
        · -- ksorted
          intro st hst
          rcases mem_listModify _ Rs id st hst with h | ⟨b, _, rfl⟩
          · rcases P17 st h with h' | h'
            · exact inv.ksorted st h'
            · rw [KSorted, h']
              exact List.Pairwise.nil
          · exact P15
        · -- headOk
          have happ : ∀ (l Δ : List (List Nat × Nat)) (x : List Nat × Nat),
              l.head? = some x → (l ++ Δ).head? = some x := by
            intro l Δ x h
            cases l with
            | nil => cases h
            | cons a t =>
              rw [List.head?_cons] at h
              rw [List.cons_append, List.head?_cons]
              exact h
          rcases P6 with ⟨Δ, hΔ⟩
          rw [hΔ]
          exact happ map Δ _ inv.headOk
        · -- keysBound
          intro p hp x hx
          rcases P7 p hp with hp' | ⟨_, ⟨q, hq, hq2⟩, _, _, _, _⟩
          · exact inv.keysBound p hp' x hx
          · rw [← hq2, transitions_mem_value hq] at hx
            exact closure_stepSet_bound hx
        · -- keysClosed
          intro p hp
          rcases P7 p hp with hp' | ⟨_, ⟨q, hq, hq2⟩, _, _, _, _⟩
          · exact inv.keysClosed p hp'
          · rw [← hq2, transitions_mem_value hq]
            exact closure_idem m _
        · -- parent
          intro j hj0 hjlt
          rw [hmodlen] at hjlt
          by_cases hjs : j < states.length
          · obtain ⟨i, hij, c, hc⟩ := inv.parent j hj0 hjs
            refine ⟨i, hij, c, ?_⟩
            have hiid : i ≠ id := by
              intro he
              rw [he] at hc
              have hpend := inv.pending (S, id) hidmem (List.mem_cons.2 (Or.inl rfl))
              rw [hpend] at hc
              simp [alookup] at hc
            rw [hgetne i hiid, P1 i (by omega)]
            exact hc
          · obtain ⟨c, hc⟩ := P16 j (by omega) hjlt
            refine ⟨id, by omega, c, ?_⟩
            rw [hgetid]
            exact hc
      have hfuel'' : Rq.length + 2 ^ (uNfa m).length ≤ fuel + Rm.length := by
        rw [List.length_cons] at hfuel
        omega
      obtain ⟨F1, F2, F3⟩ := ih states'' Rm Rq inv'' hfuel''
      rw [hred]
      refine ⟨F1, ?_, ?_⟩
      · intro S₀ j₀ h
        exact F2 S₀ j₀ (P5 S₀ j₀ h)
      · intro p hp hpq
        have hpneS : p.1 ≠ S := by
          intro he
          exact hpq (by rw [he]; exact List.mem_cons.2 (Or.inl rfl))
        have hpq' : p.1 ∉ queue' := fun h => hpq (List.mem_cons.2 (Or.inr h))
        have hpRm : p ∈ Rm := hmemRm p hp
        have hpnotRq : p.1 ∉ Rq := by
          intro h
          rcases P8 p.1 h with h' | ⟨_, h2⟩
          · exact hpq' h'
          · exact h2 (List.mem_map_of_mem Prod.fst hp)
        rw [F3 p hpRm hpnotRq, hgetne p.2 (hotherid p hp hpneS),
          P1 p.2 (hmemlt p hp)]

/-! ## Final facts about `Dfa::from_nfa` -/

/-- The invariant holds of the completed run of `Dfa::from_nfa`. -/
theorem fromNfa_final (m : Nfa) :
    FromNfaInv m (Dfa.from_nfa m).states (fromNfaMap m) [] := by
  have inv0 : FromNfaInv m [⟨[], acceptsAny m (epsilon_closure m [0])⟩]
      [(epsilon_closure m [0], 0)] [epsilon_closure m [0]] := by
    refine ⟨rfl, List.nodup_singleton _, List.nodup_singleton _, ?_, ?_, ?_, ?_,
      ?_, rfl, ?_, ?_, ?_⟩
    · intro S hS
      rcases List.mem_singleton.1 hS with rfl
      exact List.mem_singleton.2 rfl
    · intro p hp
      rcases List.mem_singleton.1 hp with rfl
      rfl
    · intro p hp hq
      rcases List.mem_singleton.1 hp with rfl
      exact absurd (List.mem_singleton.2 rfl) hq
    · intro p hp _
      rcases List.mem_singleton.1 hp with rfl
      rfl
    · intro st hst
      rcases List.mem_singleton.1 hst with rfl
      exact List.Pairwise.nil
    · intro p hp x hx
      rcases List.mem_singleton.1 hp with rfl
      exact closure_initial_bound hx
    · intro p hp
      rcases List.mem_singleton.1 hp with rfl
      exact closure_idem m [0]
    · intro j hj0 hj1
      rw [List.length_singleton] at hj1
      omega
  have hfuel : ([epsilon_closure m [0]] : List (List Nat)).length
      + 2 ^ (uNfa m).length
      ≤ dfaFuel m + ([(epsilon_closure m [0], 0)] : List (List Nat × Nat)).length := by
    rw [List.length_singleton, List.length_singleton, dfaFuel]
    omega
  exact (fromNfaLoop_spec m (dfaFuel m) _ _ _ inv0 hfuel).1

/-- The canonicalization map sends the initial closure to handle 0. -/
theorem fromNfa_lookup_initial (m : Nfa) :
    lookupSet (fromNfaMap m) (epsilon_closure m [0]) = some 0 := by
  have h := (fromNfa_final m).headOk
  rcases hm : fromNfaMap m with _ | ⟨hd, tl⟩
  · rw [hm] at h
    cases h
  · rw [hm, List.head?_cons] at h
    injection h with h
    rw [h, lookupSet, if_pos rfl]

/-- Simulation of an empty subset always rejects. -/
theorem nfaSim_nil_false (m : Nfa) : ∀ (w : List Char), nfaSim m [] w = false
  | [] => rfl
  | c :: w => by
    rw [nfaSim]
    have h1 : stepSet m [] c = [] := rfl
    rw [h1, epsilon_closure_nil]
    exact nfaSim_nil_false m w

/-- If no source state has an entry on `c`, the step set is empty. -/
theorem stepSet_nil_of_no_entry {m : Nfa} {S : List Nat} {c : Char}
    (h : ∀ s ∈ S, ∀ p ∈ (stateAt m s).branches, p.1 ≠ c) :
    stepSet m S c = [] := by
  rw [List.eq_nil_iff_forall_not_mem]
  intro t ht
  rcases mem_stepSet.1 ht with ⟨s, hs, ht'⟩
  rw [targetsOfAll] at ht'
  rcases mem_keyTargets.1 ht' with ⟨p, hp, h1, _⟩
  exact h s hs p hp h1

/-- The deterministic run of the constructed DFA from the handle of a
canonical set simulates the NFA subset simulation from that set. -/
theorem dfaRun_nfaSim (m : Nfa) :
    ∀ (w : List Char) (S : List Nat) (id : Nat),
      lookupSet (fromNfaMap m) S = some id →
      dfaRun (Dfa.from_nfa m) id w = nfaSim m S w
  | [], S, id, h => by
    have hmem := lookupSet_mem h
    exact (fromNfa_final m).acceptsOk (S, id) hmem
  | c :: w, S, id, h => by
    have hmem := lookupSet_mem h
    obtain ⟨C1, C2⟩ := (fromNfa_final m).correct (S, id) hmem (List.not_mem_nil S)
    rw [dfaRun, nfaSim]
    rcases hcT : alookup (transitions m S) c with _ | T
    · have hnone : alookup (dstateAt (Dfa.from_nfa m) id).branches c = none :=
        C1 c hcT
      rw [hnone]
      rw [stepSet_nil_of_no_entry (transitions_none.1 hcT), epsilon_closure_nil]
      exact (nfaSim_nil_false m w).symm
    · obtain ⟨j, hj1, hj2⟩ := C2 c T hcT
      have hsome : alookup (dstateAt (Dfa.from_nfa m) id).branches c = some j :=
        hj2
      rw [hsome]
      rw [← transitions_some hcT]
      exact dfaRun_nfaSim m w T j hj1

/-- Language equivalence of the constructed DFA and the source NFA. -/
theorem from_nfa_correct (m : Nfa) (w : List Char) :
    dfaAccepts (Dfa.from_nfa m) w = nfaAccepts m w :=
  dfaRun_nfaSim m w (epsilon_closure m [0]) 0 (fromNfa_lookup_initial m)

/-! ## The NFA view of the constructed DFA accepts the same language -/

/-- Lookup finds any entry of a key-sorted association list. -/
theorem alookup_of_mem {β : Type} :
    ∀ {l : List (Char × β)}, KSorted l → ∀ {p : Char × β}, p ∈ l →
      alookup l p.1 = some p.2
  | [], _, p, hp => absurd hp (List.not_mem_nil p)
  | (k, v) :: rest, hs, p, hp => by
    rw [KSorted, List.pairwise_cons] at hs
    rcases List.mem_cons.1 hp with hpr | hp
    · rw [hpr]
      rw [alookup, if_pos rfl]
    · have hne : p.1 ≠ k := ne_of_gt (hs.1 p hp)
      rw [alookup, if_neg hne]
      exact alookup_of_mem hs.2 hp

/-- Key targets of a singleton-valued (NFA-view) branch map. -/
theorem keyTargets_map_singleton :
    ∀ {l : List (Char × Nat)}, KSorted l → ∀ (c : Char),
      keyTargets (l.map (fun p => (p.1, [p.2]))) c
        = ((alookup l c).map (fun j => [j])).getD []
  | [], _, c => rfl
  | (k, v) :: rest, hs, c => by
    rw [KSorted, List.pairwise_cons] at hs
    rw [List.map_cons, keyTargets_cons]
    by_cases h : k = c
    · rw [if_pos h]
      have hnone : alookup rest c = none := by
        refine alookup_eq_none_of_lt ?_
        intro p hp
        rw [← h]
        exact hs.1 p hp
      have hrest := keyTargets_map_singleton hs.2 c
      rw [hrest, hnone]
      rw [alookup, if_pos h.symm]
      rfl
    · rw [if_neg h]
      rw [keyTargets_map_singleton hs.2 c]
      rw [alookup, if_neg (fun he => h he.symm)]

/-- The NFA view has no epsilon transitions anywhere. -/
theorem view_eps_nil (d : Dfa) (s : Nat) :
    (stateAt (Nfa.fromDfa d) s).epsilon_transitions = [] := by
  rw [fromDfa_stateAt]

/-- Epsilon closure in the NFA view is the identity on sorted sets. -/
theorem view_closure (d : Dfa) (L : List Nat) (hL : SSorted L) :
    epsilon_closure (Nfa.fromDfa d) L = L := by
  refine SSorted.eq_of_mem_iff (epsilon_closure_sorted _ _) hL ?_
  intro x
  rw [mem_epsilon_closure]
  constructor
  · rintro ⟨s, hs, hr⟩
    induction hr with
    | refl => exact hs
    | tail _ hbc _ =>
      rw [epsStep, view_eps_nil] at hbc
      exact absurd hbc (List.not_mem_nil _)
  · intro hx
    exact ⟨x, hx, Relation.ReflTransGen.refl⟩

/-- Simulating the NFA view from a singleton handle set is exactly the
deterministic run of the underlying DFA. -/
theorem view_run (d : Dfa) (hb : ∀ st ∈ d.states, KSorted st.branches) :
    ∀ (w : List Char) (h : Nat),
      nfaSim (Nfa.fromDfa d) [h] w = dfaRun d h w
  | [], h => by
    show acceptsAny (Nfa.fromDfa d) [h] = (dstateAt d h).accepts
    rw [acceptsAny]
    simp only [List.any_cons, List.any_nil, Bool.or_false]
    rw [fromDfa_stateAt]
  | c :: w, h => by
    rw [nfaSim, dfaRun]
    have hks : KSorted (dstateAt d h).branches := by
      by_cases hh : h < d.states.length
      · have hget : dstateAt d h = d.states[h] := List.getD_eq_getElem _ _ hh
        rw [hget]
        exact hb _ (List.getElem_mem hh)
      · rw [dstateAt, List.getD_eq_default _ _ (by omega)]
        exact List.Pairwise.nil
    have hstep : stepSet (Nfa.fromDfa d) [h] c
        = ((alookup (dstateAt d h).branches c).map (fun j => [j])).getD [] := by
      show targetsOfAll (stateAt (Nfa.fromDfa d) h) c ++ [] = _
      rw [List.append_nil, targetsOfAll, fromDfa_stateAt]
      exact keyTargets_map_singleton hks c
    rcases hlook : alookup (dstateAt d h).branches c with _ | j
    · have hstep' : stepSet (Nfa.fromDfa d) [h] c = [] := by
        rw [hstep, hlook]
        rfl
      rw [hstep', epsilon_closure_nil]
      exact nfaSim_nil_false _ w
    · have hstep' : stepSet (Nfa.fromDfa d) [h] c = [j] := by
        rw [hstep, hlook]
        rfl
      rw [hstep', view_closure d [j] (List.pairwise_singleton _ _)]
      exact view_run d hb w j

/-- Acceptance of the NFA view equals acceptance of the DFA. -/
theorem view_accepts (d : Dfa) (hb : ∀ st ∈ d.states, KSorted st.branches)
    (w : List Char) : nfaAccepts (Nfa.fromDfa d) w = dfaAccepts d w := by
  rw [nfaAccepts, dfaAccepts,
    view_closure d [0] (List.pairwise_singleton _ _)]
  exact view_run d hb w 0

/-- The two language equivalences, for every NFA structure. -/
theorem from_nfa_view_correct (m : Nfa) (w : List Char) :
    nfaAccepts (Nfa.fromDfa (Dfa.from_nfa m)) w = nfaAccepts m w := by
  rw [view_accepts (Dfa.from_nfa m) (fromNfa_final m).ksorted w]
  exact from_nfa_correct m w

/-! ## Claim C3 (language equivalence of NFA, DFA and NFA view) -/

/-- **C3.** For every NFA produced by `Nfa::from_regex` from a valid
pattern and every input string, the DFA produced by `Dfa::from_nfa`
accepts the string iff the original NFA accepts it, and likewise for its
NFA-view adaptation via `From<Dfa>`; NFA acceptance is the standard
epsilon-closure simulation, and DFA acceptance the deterministic
simulation.  (Proved here for *every* NFA structure, instantiated at the
parser output as the claim states.) -/
theorem claim_C3 (pattern : List Char) (nfa : Nfa) (w : List Char)
    (_h : Nfa.from_regex pattern = .ok nfa) :
    dfaAccepts (Dfa.from_nfa nfa) w = nfaAccepts nfa w
    ∧ nfaAccepts (Nfa.fromDfa (Dfa.from_nfa nfa)) w = nfaAccepts nfa w :=
  ⟨from_nfa_correct nfa w, from_nfa_view_correct nfa w⟩

/-- Witness for C3 at the pattern `"a"` and input `"a"`. -/
theorem claim_C3_witness :
    dfaAccepts (Dfa.from_nfa ⟨[⟨[('a', [1])], [], false⟩, ⟨[], [], true⟩]⟩) ['a']
        = nfaAccepts ⟨[⟨[('a', [1])], [], false⟩, ⟨[], [], true⟩]⟩ ['a']
    ∧ nfaAccepts
          (Nfa.fromDfa (Dfa.from_nfa ⟨[⟨[('a', [1])], [], false⟩, ⟨[], [], true⟩]⟩))
          ['a']
        = nfaAccepts ⟨[⟨[('a', [1])], [], false⟩, ⟨[], [], true⟩]⟩ ['a'] :=
  claim_C3 ['a'] ⟨[⟨[('a', [1])], [], false⟩, ⟨[], [], true⟩]⟩ ['a'] (by rfl)

/-! ## Claims C4 and C10 (determinization invariants) -/

/-- A successful lookup comes from an entry of the list. -/
theorem alookup_mem {β : Type} :
    ∀ {l : List (Char × β)} {c : Char} {v : β},
      alookup l c = some v → (c, v) ∈ l
  | [], _, _, h => by cases h
  | (k, w) :: rest, c, v, h => by
    rw [alookup] at h
    by_cases hc : c = k
    · rw [if_pos hc] at h
      injection h with h
      rw [hc, ← h]
      exact List.mem_cons.2 (Or.inl rfl)
    · rw [if_neg hc] at h
      exact List.mem_cons.2 (Or.inr (alookup_mem h))

/-- `acceptsAny` as an existential over the set. -/
theorem acceptsAny_iff (m : Nfa) (S : List Nat) :
    acceptsAny m S = true ↔ ∃ s ∈ S, (stateAt m s).accepts = true := by
  rw [acceptsAny, List.any_eq_true]

/-- **C4.** Throughout `Dfa::from_nfa` the canonicalization map is
one-to-one: two target configurations whose epsilon closures are equal as
sets are assigned the same DFA handle (the map's keys are canonical
epsilon-closed sets, so set-equal keys are identical and identical keys
share one handle); distinct canonical sets get distinct handles (lookups
sharing a handle coincide); every `transitions` target set is already
epsilon-closed; and every allocated DFA state's accept flag is true iff
its canonical set contains an accepting NFA handle. -/
theorem claim_C4 (m : Nfa) :
    (∀ S₁ S₂ id, lookupSet (fromNfaMap m) S₁ = some id →
        lookupSet (fromNfaMap m) S₂ = some id → S₁ = S₂)
    ∧ (∀ p ∈ fromNfaMap m, ∀ q ∈ fromNfaMap m,
        (∀ x, x ∈ p.1 ↔ x ∈ q.1) → p = q)
    ∧ (∀ p ∈ fromNfaMap m, epsilon_closure m p.1 = p.1)
    ∧ (∀ (S : List Nat) (c : Char) (T : List Nat),
        alookup (transitions m S) c = some T → epsilon_closure m T = T)
    ∧ (∀ p ∈ fromNfaMap m,
        ((dstateAt (Dfa.from_nfa m) p.2).accepts = true
          ↔ ∃ s ∈ p.1, (stateAt m s).accepts = true)) := by
  have inv := fromNfa_final m
  refine ⟨?_, ?_, inv.keysClosed, ?_, ?_⟩
  · intro S₁ S₂ id h1 h2
    have hm1 := lookupSet_mem h1
    have hm2 := lookupSet_mem h2
    have hnd : ((fromNfaMap m).map Prod.snd).Nodup := by
      rw [inv.ids]
      exact List.nodup_range _
    have h3 := map_snd_nodup_unique hnd hm1 hm2 rfl
    exact congrArg Prod.fst h3
  · intro p hp q hq hmem
    have hk : p.1 = q.1 := by
      have hps : SSorted p.1 := by
        rw [← inv.keysClosed p hp]
        exact epsilon_closure_sorted m _
      have hqs : SSorted q.1 := by
        rw [← inv.keysClosed q hq]
        exact epsilon_closure_sorted m _
      exact SSorted.eq_of_mem_iff hps hqs hmem
    have h1 := mem_lookupSet_of_nodup inv.keysNodup hp
    have h2 := mem_lookupSet_of_nodup inv.keysNodup hq
    rw [hk] at h1
    rw [h1] at h2
    injection h2 with h2
    exact Prod.ext hk h2
  · intro S c T hT
    rw [transitions_some hT]
    exact closure_idem m _
  · intro p hp
    rw [show (dstateAt (Dfa.from_nfa m) p.2).accepts
        = ((Dfa.from_nfa m).states.getD p.2 ⟨[], false⟩).accepts from rfl,
      inv.acceptsOk p hp]
    exact acceptsAny_iff m p.1

/-- Witness for C4: the accept-flag conjunct at the pattern `"a"`'s NFA
and the entry of canonical set `[1]` (handle 1). -/
theorem claim_C4_witness :
    (dstateAt (Dfa.from_nfa ⟨[⟨[('a', [1])], [], false⟩, ⟨[], [], true⟩]⟩) 1).accepts
        = true
      ↔ ∃ s ∈ [1], (stateAt ⟨[⟨[('a', [1])], [], false⟩, ⟨[], [], true⟩]⟩ s).accepts
        = true :=
  (claim_C4 ⟨[⟨[('a', [1])], [], false⟩, ⟨[], [], true⟩]⟩).2.2.2.2 ([1], 1) (by decide)

/-- **C10.** Every state of the DFA returned by `Dfa::from_nfa` is
reachable from handle 0 by following branch transitions, so the
reachability pruning of `optimize` would remove no states: the reachable
set is exactly the full handle range. -/
theorem claim_C10 (m : Nfa) :
    reachable_states (Dfa.from_nfa m) 0
      = List.range (Dfa.from_nfa m).states.length := by
  have inv := fromNfa_final m
  have hnpos : 0 < (Dfa.from_nfa m).states.length := by
    have hhd := inv.headOk
    rcases hne : fromNfaMap m with _ | ⟨p, tl⟩
    · rw [hne] at hhd
      cases hhd
    · have h1 : p.2 ∈ (fromNfaMap m).map Prod.snd := by
        rw [hne]
        exact List.mem_map_of_mem Prod.snd (List.mem_cons.2 (Or.inl rfl))
      rw [inv.ids] at h1
      have := List.mem_range.1 h1
      omega
  have hentry : ∀ i, i < (Dfa.from_nfa m).states.length →
      ∃ p ∈ fromNfaMap m, p.2 = i := by
    intro i hi
    have h1 : i ∈ (fromNfaMap m).map Prod.snd := by
      rw [inv.ids]
      exact List.mem_range.2 hi
    rcases List.mem_map.1 h1 with ⟨p, hp, hpi⟩
    exact ⟨p, hp, hpi⟩
  have htarget : ∀ i j, dfaEdge (Dfa.from_nfa m) i j →
      j < (Dfa.from_nfa m).states.length := by
    intro i j hij
    rw [dfaEdge, dTargets] at hij
    rcases List.mem_map.1 hij with ⟨e, he, rfl⟩
    by_cases hi : i < (Dfa.from_nfa m).states.length
    · obtain ⟨p, hp, hpi⟩ := hentry i hi
      obtain ⟨C1, C2⟩ := inv.correct p hp (List.not_mem_nil _)
      have hks : KSorted (dstateAt (Dfa.from_nfa m) i).branches := by
        have hg : dstateAt (Dfa.from_nfa m) i = (Dfa.from_nfa m).states[i] :=
          List.getD_eq_getElem _ _ hi
        rw [hg]
        exact inv.ksorted _ (List.getElem_mem hi)
      have hlk : alookup (dstateAt (Dfa.from_nfa m) i).branches e.1 = some e.2 :=
        alookup_of_mem hks he
      have hlk' : alookup ((Dfa.from_nfa m).states.getD p.2 ⟨[], false⟩).branches e.1
          = some e.2 := by
        rw [hpi]
        exact hlk
      rcases hT : alookup (transitions m p.1) e.1 with _ | T
      · rw [C1 e.1 hT] at hlk'
        cases hlk'
      · obtain ⟨j', hj1, hj2⟩ := C2 e.1 T hT
        rw [hj2] at hlk'
        injection hlk' with hlk'
        have hmem := lookupSet_mem hj1
        have h1 : j' ∈ (fromNfaMap m).map Prod.snd :=
          List.mem_map_of_mem Prod.snd hmem
        rw [inv.ids] at h1
        have := List.mem_range.1 h1
        omega
    · rw [dstateAt, List.getD_eq_default _ _ (by omega)] at he
      exact absurd he (List.not_mem_nil e)
  have hreach1 : ∀ j, j < (Dfa.from_nfa m).states.length →
      dfaReach (Dfa.from_nfa m) 0 j := by
    intro j
    induction j using Nat.strong_induction_on with
    | _ j ihj =>
      intro hj
      by_cases hj0 : j = 0
      · subst hj0
        exact Relation.ReflTransGen.refl
      · obtain ⟨i, hij, c, hc⟩ := inv.parent j (by omega) hj
        refine (ihj i hij (by omega)).tail ?_
        rw [dfaEdge, dTargets]
        have hmem : (c, j) ∈ (dstateAt (Dfa.from_nfa m) i).branches :=
          alookup_mem hc
        exact List.mem_map_of_mem Prod.snd hmem
  have hreach2 : ∀ j, dfaReach (Dfa.from_nfa m) 0 j →
      j < (Dfa.from_nfa m).states.length := by
    intro j h
    induction h with
    | refl => exact hnpos
    | tail _ hbc _ => exact htarget _ _ hbc
  refine SSorted.eq_of_mem_iff (reachable_states_sorted (Dfa.from_nfa m) 0)
    (List.pairwise_lt_range _) ?_
  intro x
  rw [mem_reachable_states, List.mem_range]
  exact ⟨fun h => hreach2 x h, fun h => hreach1 x h⟩

end AutomatonTrial
